import Mathlib

/-!
Shallow embedding of the shared-memory hash-table engine in
`src/fast_shm_cache.cc` (class `FastShmCache`), together with proofs about
its operations.

Modelling conventions:
* A C byte (`char`) is a `Nat` below 256.  Keys and values are the byte
  strings handed to the engine (`std::string`, which may contain embedded
  NUL bytes).
* A slot's fixed `char key[64]` / `char value[256]` buffers always hold a
  NUL-terminated string whose content fits the buffer (`strncpy` with a
  forced terminator writes them, `memset` clears them).  The model stores
  the buffer's C-string content, i.e. the bytes before the first NUL.
* `std::atomic` loads/stores and the per-slot mutexes serialize each
  operation; the model is the resulting sequential semantics.
* `size_t` arithmetic on the live-entry counter is modelled modulo 2^64,
  `uint32_t` hash arithmetic modulo 2^32.
* On the reference platforms (x86-64 Linux / Windows) `char` is signed, so
  `static_cast<uint32_t>(c)` sign-extends bytes at or above 0x80; the model
  reproduces that.
-/

namespace FastShm

set_option maxRecDepth 2000

/-- const size_t MAX_KEY_SIZE = 64. -/
def MAX_KEY_SIZE : Nat := 64

/-- const size_t MAX_VALUE_SIZE = 256. -/
def MAX_VALUE_SIZE : Nat := 256

/-- const size_t DEFAULT_MAX_KEYS = 1024. -/
def DEFAULT_MAX_KEYS : Nat := 1024

/-- the modulus of `uint32_t` arithmetic. -/
def U32 : Nat := 2 ^ 32

/-- the modulus of `size_t` arithmetic (64-bit platforms). -/
def U64 : Nat := 2 ^ 64

/-- const uint32_t FNV_32_PRIME = 0x01000193. -/
def FNV_32_PRIME : Nat := 0x01000193

/-- the FNV-1a offset basis 0x811c9dc5 the hash starts from. -/
def FNV_OFFSET_BASIS : Nat := 0x811c9dc5

/-- value of `static_cast<uint32_t>(c)` where `c : char` holds byte `b`:
`char` is signed on the reference platforms, so bytes at or above 0x80
sign-extend to `0xFFFFFF00 + b`. -/
def charToUInt32 (b : Nat) : Nat := if b < 128 then b else U32 - 256 + b

/-- one iteration of the hash loop: `hash ^= static_cast<uint32_t>(c);
hash *= FNV_32_PRIME;` in 32-bit arithmetic. -/
def hashStep (h b : Nat) : Nat := ((h ^^^ charToUInt32 b) * FNV_32_PRIME) % U32

/-- FastShmCache::Hash: folds `hashStep` over the key's bytes starting at
the offset basis. -/
def Hash (key : List Nat) : Nat := key.foldl hashStep FNV_OFFSET_BASIS

/-- struct CacheSlot.  `key` and `value` are the C-string contents of the
fixed 64- and 256-byte buffers (the bytes before the first NUL); `occupied` and
`timestamp` mirror the atomic fields.  The pthread mutex has no sequential
content and is omitted. -/
structure CacheSlot where
  occupied : Bool
  key : List Nat
  value : List Nat
  timestamp : Nat
  deriving Repr, DecidableEq

/-- a slot as produced by zero-initialization of the segment. -/
def emptySlot : CacheSlot := { occupied := false, key := [], value := [], timestamp := 0 }

/-- the shared segment: header fields `max_keys` and `num_entries` followed
by the slot array (`slots.length = max_keys` in every real segment). -/
structure Cache where
  max_keys : Nat
  num_entries : Nat
  slots : List CacheSlot
  deriving Repr, DecidableEq

/-- the freshly created segment: zeroed memory, `max_keys` written,
`num_entries` 0, every slot unoccupied (InitializeSharedMemory, creator
branch).  The constructor performs no validation of `maxKeys`; 0 is
accepted as-is. -/
def initCache (maxKeys : Nat) : Cache :=
  { max_keys := maxKeys, num_entries := 0, slots := List.replicate maxKeys emptySlot }

/-- slots_[i]: the slot at index `i` of the slot array (every dereference
the code performs is at an index below `max_keys`, which equals the array
length in every real segment). -/
def slotAt (c : Cache) (i : Nat) : CacheSlot := c.slots.getD i emptySlot

/-- content of the C string formed by a byte list: the bytes before the
first NUL.  `strncpy` copies exactly this (given room), and `strncmp`
compares it (given both strings terminate within the bound). -/
def cstr (l : List Nat) : List Nat := l.takeWhile (fun b => b != 0)

/-- strncmp(slot.key, key.c_str(), MAX_KEY_SIZE) == 0.  The stored key and
the probe key's C string both terminate within 64 bytes, so the bounded
compare is equality of C-string contents. -/
def slotKeyMatches (s : CacheSlot) (key : List Nat) : Bool := s.key == cstr key

/-- the probe sequence `(start_index + i) % max_keys` for
`i = 0 .. max_keys - 1` traversed by Set/Get/Delete/Has. -/
def probeSeq (cap start : Nat) : List Nat :=
  (List.range cap).map (fun i => (start + i) % cap)

/-- slot contents written by Set's claim branch: `strncpy` of key and value
(truncated at a NUL, capped at buffer size minus one), fresh timestamp,
occupied flag raised. -/
def writeSlot (key value : List Nat) (ts : Nat) : CacheSlot :=
  { occupied := true,
    key := (cstr key).take (MAX_KEY_SIZE - 1),
    value := (cstr value).take (MAX_VALUE_SIZE - 1),
    timestamp := ts }

/-- effect of Set claiming slot `idx`: write the slot and, only if it was
previously unoccupied (`was_new`), `fetch_add(1)` the live counter. -/
def writeAt (c : Cache) (idx : Nat) (key value : List Nat) (ts : Nat) : Cache :=
  let s := slotAt c idx
  { c with
    slots := c.slots.set idx (writeSlot key value ts),
    num_entries := if s.occupied then c.num_entries else (c.num_entries + 1) % U64 }

/-- the probing loop of FastShmCache::Set over the remaining candidate
indices: claim the first slot that is unoccupied or whose key matches,
otherwise keep scanning; report false with the table untouched when the
whole sequence is exhausted. -/
def setScan (key value : List Nat) (ts : Nat) : List Nat → Cache → Bool × Cache
  | [], c => (false, c)
  | idx :: rest, c =>
    let s := slotAt c idx
    if !s.occupied || slotKeyMatches s key then (true, writeAt c idx key value ts)
    else setScan key value ts rest c

/-- FastShmCache::Set: reject oversize key/value, otherwise probe from
`Hash(key) % max_keys`. -/
def Set (c : Cache) (key value : List Nat) (ts : Nat) : Bool × Cache :=
  if MAX_KEY_SIZE ≤ key.length ∨ MAX_VALUE_SIZE ≤ value.length then (false, c)
  else setScan key value ts (probeSeq c.max_keys (Hash key % c.max_keys)) c

/-- the probing loop of FastShmCache::Get: return the first occupied slot
with a matching key; the early exit at an unoccupied slot is commented out
in the source, so the loop runs the full sequence. -/
def getScan (key : List Nat) : List Nat → Cache → Option (List Nat)
  | [], _ => none
  | idx :: rest, c =>
    let s := slotAt c idx
    if s.occupied && slotKeyMatches s key then some s.value
    else getScan key rest c

/-- FastShmCache::Get: absent for oversize keys, otherwise probe from
`Hash(key) % max_keys`; a found slot's value is read back as the buffer's
C string. -/
def Get (c : Cache) (key : List Nat) : Option (List Nat) :=
  if MAX_KEY_SIZE ≤ key.length then none
  else getScan key (probeSeq c.max_keys (Hash key % c.max_keys)) c

/-- a slot after Delete/Clear reset it: occupancy dropped, both buffers
memset to zero; the timestamp field is not touched. -/
def clearSlot (s : CacheSlot) : CacheSlot := { s with occupied := false, key := [], value := [] }

/-- the probing loop of FastShmCache::Delete: clear the first occupied
matching slot and `fetch_sub(1)` the live counter (size_t wraparound
modelled by adding 2^64 - 1). -/
def delScan (key : List Nat) : List Nat → Cache → Bool × Cache
  | [], c => (false, c)
  | idx :: rest, c =>
    let s := slotAt c idx
    if s.occupied && slotKeyMatches s key then
      (true, { c with
        slots := c.slots.set idx (clearSlot s),
        num_entries := (c.num_entries + (U64 - 1)) % U64 })
    else delScan key rest c

/-- FastShmCache::Delete: reject oversize keys, otherwise probe from
`Hash(key) % max_keys`. -/
def Delete (c : Cache) (key : List Nat) : Bool × Cache :=
  if MAX_KEY_SIZE ≤ key.length then (false, c)
  else delScan key (probeSeq c.max_keys (Hash key % c.max_keys)) c

/-- the probing loop of FastShmCache::Has: presence only. -/
def hasScan (key : List Nat) : List Nat → Cache → Bool
  | [], _ => false
  | idx :: rest, c =>
    let s := slotAt c idx
    if s.occupied && slotKeyMatches s key then true else hasScan key rest c

/-- FastShmCache::Has: reject oversize keys, otherwise probe from
`Hash(key) % max_keys`. -/
def Has (c : Cache) (key : List Nat) : Bool :=
  if MAX_KEY_SIZE ≤ key.length then false
  else hasScan key (probeSeq c.max_keys (Hash key % c.max_keys)) c

/-- FastShmCache::Keys: slot-index-order list of keys of occupied slots
(indices 0 .. max_keys - 1). -/
def Keys (c : Cache) : List (List Nat) :=
  (List.range c.max_keys).filterMap (fun i =>
    let s := slotAt c i
    if s.occupied then some s.key else none)

/-- FastShmCache::Entries: slot-index-order list of (key, value) pairs of
occupied slots. -/
def Entries (c : Cache) : List (List Nat × List Nat) :=
  (List.range c.max_keys).filterMap (fun i =>
    let s := slotAt c i
    if s.occupied then some (s.key, s.value) else none)

/-- FastShmCache::Clear: reset every occupied slot (the loop covers the
whole slot array, whose length is max_keys) and store 0 into the live
counter. -/
def Clear (c : Cache) : Cache :=
  { c with
    slots := c.slots.map (fun s => if s.occupied then clearSlot s else s),
    num_entries := 0 }

/-- FastShmCache::Size: a single atomic load of the live counter. -/
def Size (c : Cache) : Nat := c.num_entries

/-- one engine invocation, for reasoning about operation sequences. -/
inductive Op where
  | set (key value : List Nat) (ts : Nat) : Op
  | del (key : List Nat) : Op
  | clear : Op

/-- apply an operation to the table, discarding its return value. -/
def applyOp (c : Cache) : Op → Cache
  | .set k v ts => (Set c k v ts).2
  | .del k => (Delete c k).2
  | .clear => Clear c

/-- state of the table after a sequence of operations on a fresh segment of
capacity `cap`. -/
def run (cap : Nat) (ops : List Op) : Cache := ops.foldl applyOp (initCache cap)

/-- number of slots whose occupancy flag is raised. -/
def countOccupied (c : Cache) : Nat := c.slots.countP (fun s => s.occupied)

/-- keys of occupied slots, in slot order (with multiplicity). -/
def occupiedKeys (c : Cache) : List (List Nat) :=
  (c.slots.filter (fun s => s.occupied)).map (fun s => s.key)

/-- number of occupied slots whose stored key matches `key`'s C string. -/
def matchCount (c : Cache) (key : List Nat) : Nat :=
  c.slots.countP (fun s => s.occupied && slotKeyMatches s key)

/-- run Set on each (key, value) pair in order, conjoining the returned
booleans (timestamps 0). -/
def setAll : Cache → List (List Nat × List Nat) → Bool × Cache
  | c, [] => (true, c)
  | c, kv :: rest =>
    let r := Set c kv.1 kv.2 0
    let r' := setAll r.2 rest
    (r.1 && r'.1, r'.2)

/-- FNV-1a as the specification words it: XOR each input octet into the
running hash, then multiply by the prime, in 32-bit arithmetic.  Written
from the spec for comparison with the source's `Hash`. -/
def fnv1aSpec (key : List Nat) : Nat :=
  key.foldl (fun h b => ((h ^^^ b) * FNV_32_PRIME) % U32) FNV_OFFSET_BASIS


/-! ## Basic bridges between the executable conditions and propositions -/

/-- eligibility condition of Set's claim branch, as a proposition. -/
def eligibleAt (c : Cache) (key : List Nat) (j : Nat) : Prop :=
  (slotAt c j).occupied = false ∨ (slotAt c j).key = cstr key

/-- hit condition of Get/Delete/Has, as a proposition. -/
def matchAt (c : Cache) (key : List Nat) (j : Nat) : Prop :=
  (slotAt c j).occupied = true ∧ (slotAt c j).key = cstr key

theorem eligible_cond (c : Cache) (key : List Nat) (j : Nat) :
    ((!(slotAt c j).occupied || slotKeyMatches (slotAt c j) key) = true) ↔ eligibleAt c key j := by
  simp [slotKeyMatches, eligibleAt, Bool.or_eq_true, Bool.not_eq_true']

theorem match_cond (c : Cache) (key : List Nat) (j : Nat) :
    (((slotAt c j).occupied && slotKeyMatches (slotAt c j) key) = true) ↔ matchAt c key j := by
  simp [slotKeyMatches, matchAt, Bool.and_eq_true]

theorem not_eligible_match (c : Cache) (key : List Nat) (j : Nat)
    (h : ¬ eligibleAt c key j) : ¬ matchAt c key j := by
  intro hm
  exact h (Or.inr hm.2)

/-! ## Characterization of the four probing loops -/

theorem setScan_false_iff (key value : List Nat) (ts : Nat) (l : List Nat) (c : Cache) :
    (setScan key value ts l c).1 = false ↔ ∀ j ∈ l, ¬ eligibleAt c key j := by
  induction l with
  | nil => simp [setScan]
  | cons j rest ih =>
    simp only [setScan]
    by_cases h : (!(slotAt c j).occupied || slotKeyMatches (slotAt c j) key) = true
    · rw [if_pos h]
      constructor
      · intro hf
        exact absurd hf (by simp)
      · intro hall
        exact absurd ((eligible_cond c key j).mp h) (hall j (List.mem_cons_self j rest))
    · rw [if_neg h, ih]
      have hne : ¬ eligibleAt c key j := fun he => h ((eligible_cond c key j).mpr he)
      constructor
      · intro hrest p hp
        rcases List.mem_cons.mp hp with rfl | hp'
        · exact hne
        · exact hrest p hp'
      · intro hall p hp
        exact hall p (List.mem_cons_of_mem j hp)

theorem setScan_snd_of_false (key value : List Nat) (ts : Nat) (l : List Nat) (c : Cache)
    (h : (setScan key value ts l c).1 = false) : (setScan key value ts l c).2 = c := by
  induction l with
  | nil => simp [setScan]
  | cons j rest ih =>
    by_cases hc : (!(slotAt c j).occupied || slotKeyMatches (slotAt c j) key) = true
    · simp [setScan, hc] at h
    · simp only [setScan, hc] at h ⊢
      rw [if_neg (by simp_all)] at h ⊢
      exact ih h

theorem setScan_true_split (key value : List Nat) (ts : Nat) (l : List Nat) (c : Cache)
    (h : (setScan key value ts l c).1 = true) :
    ∃ l1 j l2, l = l1 ++ j :: l2 ∧ (∀ p ∈ l1, ¬ eligibleAt c key p) ∧ eligibleAt c key j ∧
      (setScan key value ts l c).2 = writeAt c j key value ts := by
  induction l with
  | nil => simp [setScan] at h
  | cons j rest ih =>
    by_cases hc : (!(slotAt c j).occupied || slotKeyMatches (slotAt c j) key) = true
    · refine ⟨[], j, rest, rfl, by simp, (eligible_cond c key j).mp hc, ?_⟩
      simp [setScan, hc]
    · simp only [setScan, hc] at h ⊢
      rw [if_neg (by simp_all)] at h ⊢
      obtain ⟨l1, j', l2, hsplit, hpre, helig, hsnd⟩ := ih h
      refine ⟨j :: l1, j', l2, by simp [hsplit], ?_, helig, hsnd⟩
      intro p hp
      rcases List.mem_cons.mp hp with rfl | hp'
      · exact fun he => hc ((eligible_cond c key p).mpr he)
      · exact hpre p hp' 

theorem getScan_none_iff (key : List Nat) (l : List Nat) (c : Cache) :
    getScan key l c = none ↔ ∀ j ∈ l, ¬ matchAt c key j := by
  induction l with
  | nil => simp [getScan]
  | cons j rest ih =>
    by_cases hc : ((slotAt c j).occupied && slotKeyMatches (slotAt c j) key) = true
    · simp only [getScan, hc, if_pos]
      simp [(match_cond c key j).mp hc]
    · simp only [getScan, hc]
      rw [if_neg (by simp_all)]
      simp only [List.mem_cons, ih]
      constructor
      · rintro hrest p (rfl | hp)
        · exact fun hm => by simp [(match_cond c key p).mpr hm] at hc
        · exact hrest p hp
      · intro hall p hp
        exact hall p (Or.inr hp)

theorem getScan_some (key : List Nat) (l : List Nat) (c : Cache) (v : List Nat)
    (h : getScan key l c = some v) :
    ∃ j ∈ l, matchAt c key j ∧ v = (slotAt c j).value := by
  induction l with
  | nil => simp [getScan] at h
  | cons j rest ih =>
    by_cases hc : ((slotAt c j).occupied && slotKeyMatches (slotAt c j) key) = true
    · simp only [getScan, hc, if_pos, Option.some.injEq] at h
      exact ⟨j, by simp, (match_cond c key j).mp hc, h.symm⟩
    · simp only [getScan, hc] at h
      rw [if_neg (by simp_all)] at h
      obtain ⟨j', hj', hm, hv⟩ := ih h
      exact ⟨j', by simp [hj'], hm, hv⟩

theorem hasScan_true_iff (key : List Nat) (l : List Nat) (c : Cache) :
    hasScan key l c = true ↔ ∃ j ∈ l, matchAt c key j := by
  induction l with
  | nil => simp [hasScan]
  | cons j rest ih =>
    by_cases hc : ((slotAt c j).occupied && slotKeyMatches (slotAt c j) key) = true
    · simp only [hasScan]
      rw [if_pos hc]
      constructor
      · intro _
        exact ⟨j, List.mem_cons_self j rest, (match_cond c key j).mp hc⟩
      · intro _
        rfl
    · simp only [hasScan, hc]
      rw [if_neg (by simp_all)]
      rw [ih]
      constructor
      · rintro ⟨j', hj', hm⟩
        exact ⟨j', by simp [hj'], hm⟩
      · rintro ⟨j', hj', hm⟩
        rcases List.mem_cons.mp hj' with rfl | hj'
        · exact absurd ((match_cond c key j').mpr hm) (by simp_all)
        · exact ⟨j', hj', hm⟩

theorem delScan_fst (key : List Nat) (l : List Nat) (c : Cache) :
    (delScan key l c).1 = hasScan key l c := by
  induction l with
  | nil => simp [delScan, hasScan]
  | cons j rest ih =>
    by_cases hc : ((slotAt c j).occupied && slotKeyMatches (slotAt c j) key) = true
    · simp [delScan, hasScan, hc]
    · simp only [delScan, hasScan, hc]
      rw [if_neg (by simp_all), if_neg (by simp_all)]
      exact ih

theorem delScan_snd_of_false (key : List Nat) (l : List Nat) (c : Cache)
    (h : (delScan key l c).1 = false) : (delScan key l c).2 = c := by
  induction l with
  | nil => simp [delScan]
  | cons j rest ih =>
    by_cases hc : ((slotAt c j).occupied && slotKeyMatches (slotAt c j) key) = true
    · simp [delScan, hc] at h
    · simp only [delScan, hc] at h ⊢
      rw [if_neg (by simp_all)] at h ⊢
      exact ih h

theorem delScan_true_split (key : List Nat) (l : List Nat) (c : Cache)
    (h : (delScan key l c).1 = true) :
    ∃ l1 j l2, l = l1 ++ j :: l2 ∧ (∀ p ∈ l1, ¬ matchAt c key p) ∧ matchAt c key j ∧
      (delScan key l c).2 = { c with
        slots := c.slots.set j (clearSlot (slotAt c j)),
        num_entries := (c.num_entries + (U64 - 1)) % U64 } := by
  induction l with
  | nil => simp [delScan] at h
  | cons j rest ih =>
    by_cases hc : ((slotAt c j).occupied && slotKeyMatches (slotAt c j) key) = true
    · refine ⟨[], j, rest, rfl, by simp, (match_cond c key j).mp hc, ?_⟩
      simp [delScan, hc]
    · simp only [delScan, hc] at h ⊢
      rw [if_neg (by simp_all)] at h ⊢
      obtain ⟨l1, j', l2, hsplit, hpre, hm, hsnd⟩ := ih h
      refine ⟨j :: l1, j', l2, by simp [hsplit], ?_, hm, hsnd⟩
      intro p hp
      rcases List.mem_cons.mp hp with rfl | hp'
      · exact fun hmp => hc ((match_cond c key p).mpr hmp)
      · exact hpre p hp' 

/-! ## Probe sequence arithmetic -/

/-- position of slot index `j` within the probe sequence starting at
`start`: the unique `i < cap` with `(start + i) % cap = j`. -/
def probeRank (cap start j : Nat) : Nat := (cap + j - start % cap) % cap

theorem probeSeq_length (cap start : Nat) : (probeSeq cap start).length = cap := by
  simp [probeSeq]

theorem mem_probeSeq_lt {cap start j : Nat} (h : j ∈ probeSeq cap start) : j < cap := by
  simp only [probeSeq, List.mem_map, List.mem_range] at h
  obtain ⟨i, hi, rfl⟩ := h
  exact Nat.mod_lt _ (Nat.lt_of_le_of_lt (Nat.zero_le i) hi)

theorem probeSeq_getElem_some (cap start i : Nat) (hi : i < cap) :
    (probeSeq cap start)[i]? = some ((start + i) % cap) := by
  rw [probeSeq, List.getElem?_map, List.getElem?_range hi]
  rfl

theorem probeRank_lt (cap start j : Nat) (hcap : 0 < cap) : probeRank cap start j < cap :=
  Nat.mod_lt _ hcap

theorem apply_probeRank {cap : Nat} (start : Nat) {j : Nat} (hcap : 0 < cap) (hj : j < cap) :
    (start + probeRank cap start j) % cap = j := by
  have hs : start % cap < cap := Nat.mod_lt _ hcap
  rw [probeRank, Nat.add_mod_mod, ← Nat.mod_add_mod]
  have he : start % cap + (cap + j - start % cap) = cap + j := by omega
  rw [he, Nat.add_mod_left, Nat.mod_eq_of_lt hj]

theorem probeRank_apply {cap : Nat} (start : Nat) {i : Nat} (hi : i < cap) :
    probeRank cap start ((start + i) % cap) = i := by
  have hcap : 0 < cap := Nat.lt_of_le_of_lt (Nat.zero_le i) hi
  have hs : start % cap < cap := Nat.mod_lt _ hcap
  rw [probeRank, ← Nat.mod_add_mod]
  rcases Nat.lt_or_ge (start % cap + i) cap with hlt | hge
  · rw [Nat.mod_eq_of_lt hlt]
    have he : cap + (start % cap + i) - start % cap = cap + i := by omega
    rw [he, Nat.add_mod_left, Nat.mod_eq_of_lt hi]
  · rw [Nat.mod_eq_sub_mod hge,
      Nat.mod_eq_of_lt (show start % cap + i - cap < cap by omega)]
    have he : cap + (start % cap + i - cap) - start % cap = i := by omega
    rw [he, Nat.mod_eq_of_lt hi]

theorem mem_probeSeq_of_lt {cap : Nat} (start : Nat) {j : Nat} (hcap : 0 < cap) (hj : j < cap) :
    j ∈ probeSeq cap start := by
  simp only [probeSeq, List.mem_map, List.mem_range]
  exact ⟨probeRank cap start j, probeRank_lt cap start j hcap, apply_probeRank start hcap hj⟩

/-- a split of the probe sequence locates the claimed slot at its rank:
everything of smaller rank lies in the scanned-and-rejected part. -/
theorem probeSeq_split_rank {cap start : Nat} {l1 l2 : List Nat} {j : Nat}
    (h : probeSeq cap start = l1 ++ j :: l2) :
    l1.length < cap ∧ probeRank cap start j = l1.length ∧
      ∀ p, p < cap → probeRank cap start p < l1.length → p ∈ l1 := by
  have hlen : cap = l1.length + (l2.length + 1) := by
    have := congrArg List.length h
    simpa [probeSeq_length] using this
  have hl1 : l1.length < cap := by omega
  have hcap : 0 < cap := by omega
  have hj : j = (start + l1.length) % cap := by
    have h1 : (probeSeq cap start)[l1.length]? = some j := by
      rw [h, List.getElem?_append_right (Nat.le_refl l1.length)]
      simp
    rw [probeSeq_getElem_some cap start l1.length hl1] at h1
    exact (Option.some.inj h1).symm
  have hrank : probeRank cap start j = l1.length := by
    rw [hj]
    exact probeRank_apply start hl1
  refine ⟨hl1, hrank, fun p hp hplt => ?_⟩
  have hrl : probeRank cap start p < cap := probeRank_lt cap start p hcap
  have htake : (probeSeq cap start).take l1.length = l1 := by
    rw [h]
    exact List.take_left l1 (j :: l2)
  have hpmem : p ∈ (probeSeq cap start).take l1.length := by
    rw [List.mem_iff_getElem?]
    refine ⟨probeRank cap start p, ?_⟩
    rw [List.getElem?_take_of_lt hplt, probeSeq_getElem_some cap start _ hrl]
    exact congrArg some (apply_probeRank start hcap hp)
  rw [htake] at hpmem
  exact hpmem

/-! ## List helpers -/

theorem getD_set_self {α : Type} (l : List α) (n : Nat) (a d : α) (h : n < l.length) :
    (l.set n a).getD n d = a := by
  rw [List.getD_eq_getElem?_getD, List.getElem?_set_self h]
  rfl

theorem getD_set_ne {α : Type} (l : List α) {n m : Nat} (a d : α) (h : n ≠ m) :
    (l.set n a).getD m d = l.getD m d := by
  rw [List.getD_eq_getElem?_getD, List.getD_eq_getElem?_getD, List.getElem?_set_ne h]

theorem countP_set_aux {α : Type} (p : α → Bool) (l : List α) (n : Nat) (a d : α)
    (h : n < l.length) :
    (l.set n a).countP p + (if p (l.getD n d) then 1 else 0) =
      l.countP p + (if p a then 1 else 0) := by
  induction l generalizing n with
  | nil => simp at h
  | cons x xs ih =>
    cases n with
    | zero =>
      simp only [List.set, List.getD_cons_zero, List.countP_cons]
      omega
    | succ n =>
      simp only [List.set, List.getD_cons_succ, List.countP_cons]
      have := ih n (by simpa using h)
      omega

theorem cstr_of_no_nul {l : List Nat} (h : (0 : Nat) ∉ l) : cstr l = l := by
  rw [cstr, List.takeWhile_eq_self_iff]
  intro x hx
  simp only [bne_iff_ne, ne_eq]
  exact fun h0 => h (h0 ▸ hx)

theorem cstr_length_le (l : List Nat) : (cstr l).length ≤ l.length :=
  (List.takeWhile_sublist _).length_le

theorem no_nul_cstr (l : List Nat) : (0 : Nat) ∉ cstr l := by
  intro h
  have := List.mem_takeWhile_imp h
  simp at this

/-- the key field written by Set is exactly the key's C string whenever the
key passed the length check. -/
theorem writeSlot_key {key : List Nat} (value : List Nat) (ts : Nat)
    (h : key.length < MAX_KEY_SIZE) :
    (writeSlot key value ts).key = cstr key := by
  rw [writeSlot]
  exact List.take_of_length_le (by
    have := cstr_length_le key
    simp only [MAX_KEY_SIZE] at h ⊢
    omega)

/-- the value field written by Set is exactly the value's C string whenever
the value passed the length check. -/
theorem writeSlot_value (key : List Nat) {value : List Nat} (ts : Nat)
    (h : value.length < MAX_VALUE_SIZE) :
    (writeSlot key value ts).value = cstr value := by
  rw [writeSlot]
  exact List.take_of_length_le (by
    have := cstr_length_le value
    simp only [MAX_VALUE_SIZE] at h ⊢
    omega)

/-! ## Slot access and state-shape lemmas -/

theorem slotAt_eq_getElem {c : Cache} {j : Nat} (h : j < c.slots.length) :
    slotAt c j = c.slots[j] := by
  rw [slotAt, List.getD_eq_getElem?_getD, List.getElem?_eq_getElem h]
  rfl

theorem slotAt_of_le {c : Cache} {j : Nat} (h : c.slots.length ≤ j) :
    slotAt c j = emptySlot := by
  rw [slotAt, List.getD_eq_getElem?_getD, List.getElem?_eq_none h]
  rfl

theorem slotAt_mem {c : Cache} {j : Nat} (h : j < c.slots.length) : slotAt c j ∈ c.slots := by
  rw [slotAt_eq_getElem h]
  exact List.getElem_mem h

theorem slotAt_writeAt_self (c : Cache) {idx : Nat} (key value : List Nat) (ts : Nat)
    (h : idx < c.slots.length) :
    slotAt (writeAt c idx key value ts) idx = writeSlot key value ts := by
  simp only [slotAt, writeAt]
  exact getD_set_self _ _ _ _ h

theorem slotAt_writeAt_ne (c : Cache) {idx m : Nat} (key value : List Nat) (ts : Nat)
    (h : idx ≠ m) :
    slotAt (writeAt c idx key value ts) m = slotAt c m := by
  simp only [slotAt, writeAt]
  exact getD_set_ne _ _ _ h

theorem writeAt_slots_length (c : Cache) (idx : Nat) (key value : List Nat) (ts : Nat) :
    (writeAt c idx key value ts).slots.length = c.slots.length := by
  simp [writeAt]

theorem setScan_snd_shape (key value : List Nat) (ts : Nat) (l : List Nat) (c : Cache) :
    (setScan key value ts l c).2.max_keys = c.max_keys ∧
      (setScan key value ts l c).2.slots.length = c.slots.length := by
  cases hb : (setScan key value ts l c).1
  · rw [setScan_snd_of_false _ _ _ _ _ hb]
    exact ⟨rfl, rfl⟩
  · obtain ⟨l1, j, l2, _, _, _, hsnd⟩ := setScan_true_split _ _ _ _ _ hb
    rw [hsnd]
    exact ⟨rfl, writeAt_slots_length c j key value ts⟩

theorem delScan_snd_shape (key : List Nat) (l : List Nat) (c : Cache) :
    (delScan key l c).2.max_keys = c.max_keys ∧
      (delScan key l c).2.slots.length = c.slots.length := by
  cases hb : (delScan key l c).1
  · rw [delScan_snd_of_false _ _ _ hb]
    exact ⟨rfl, rfl⟩
  · obtain ⟨l1, j, l2, _, _, _, hsnd⟩ := delScan_true_split _ _ _ hb
    rw [hsnd]
    exact ⟨rfl, by simp⟩

theorem applyOp_shape (c : Cache) (op : Op) :
    (applyOp c op).max_keys = c.max_keys ∧ (applyOp c op).slots.length = c.slots.length := by
  cases op with
  | set k v ts =>
    rw [applyOp, Set]
    by_cases h : MAX_KEY_SIZE ≤ k.length ∨ MAX_VALUE_SIZE ≤ v.length
    · rw [if_pos h]
      exact ⟨rfl, rfl⟩
    · rw [if_neg h]
      exact setScan_snd_shape k v ts _ c
  | del k =>
    rw [applyOp, Delete]
    by_cases h : MAX_KEY_SIZE ≤ k.length
    · rw [if_pos h]
      exact ⟨rfl, rfl⟩
    · rw [if_neg h]
      exact delScan_snd_shape k _ c
  | clear =>
    exact ⟨rfl, by simp [applyOp, Clear]⟩

theorem run_shape (cap : Nat) (ops : List Op) :
    (run cap ops).max_keys = cap ∧ (run cap ops).slots.length = cap := by
  suffices h : ∀ (l : List Op) (c : Cache),
      (l.foldl applyOp c).max_keys = c.max_keys ∧
        (l.foldl applyOp c).slots.length = c.slots.length by
    have := h ops (initCache cap)
    simpa [run, initCache] using this
  intro l
  induction l with
  | nil => exact fun c => ⟨rfl, rfl⟩
  | cons op rest ih =>
    intro c
    have h1 := applyOp_shape c op
    have h2 := ih (applyOp c op)
    exact ⟨h2.1.trans h1.1, h2.2.trans h1.2⟩

/-! ## Operation-level characterizations -/

theorem Has_iff (c : Cache) (k : List Nat) (hlen : c.slots.length = c.max_keys) :
    Has c k = true ↔
      k.length < MAX_KEY_SIZE ∧ ∃ j, j < c.max_keys ∧ matchAt c k j := by
  rw [Has]
  by_cases hk : MAX_KEY_SIZE ≤ k.length
  · rw [if_pos hk]
    constructor
    · intro h
      exact absurd h (by simp)
    · rintro ⟨hlt, -⟩
      omega
  · rw [if_neg hk, hasScan_true_iff]
    constructor
    · rintro ⟨j, hj, hm⟩
      exact ⟨by omega, j, mem_probeSeq_lt hj, hm⟩
    · rintro ⟨-, j, hj, hm⟩
      exact ⟨j, mem_probeSeq_of_lt _ (by omega) hj, hm⟩

theorem Get_none_iff_Has (c : Cache) (k : List Nat) :
    Get c k = none ↔ Has c k = false := by
  rw [Get, Has]
  by_cases hk : MAX_KEY_SIZE ≤ k.length
  · rw [if_pos hk, if_pos hk]
    simp
  · rw [if_neg hk, if_neg hk, getScan_none_iff, Bool.eq_false_iff, Ne, hasScan_true_iff]
    push_neg
    constructor
    · intro h j hj
      exact h j hj
    · intro h j hj
      exact h j hj

theorem Delete_fst_eq_Has (c : Cache) (k : List Nat) : (Delete c k).1 = Has c k := by
  rw [Delete, Has]
  by_cases hk : MAX_KEY_SIZE ≤ k.length
  · rw [if_pos hk, if_pos hk]
  · rw [if_neg hk, if_neg hk]
    exact delScan_fst k _ c

theorem setScan_true_iff (key value : List Nat) (ts : Nat) (l : List Nat) (c : Cache) :
    (setScan key value ts l c).1 = true ↔ ∃ j ∈ l, eligibleAt c key j := by
  cases hb : (setScan key value ts l c).1
  · rw [setScan_false_iff] at hb
    simp only [Bool.false_eq_true, false_iff]
    rintro ⟨j, hj, he⟩
    exact hb j hj he
  · refine iff_of_true rfl ?_
    obtain ⟨l1, j, l2, hsplit, -, helig, -⟩ := setScan_true_split _ _ _ _ _ hb
    exact ⟨j, by simp [hsplit], helig⟩

theorem Set_fst_iff (c : Cache) (k v : List Nat) (ts : Nat)
    (hlen : c.slots.length = c.max_keys) :
    (Set c k v ts).1 = true ↔
      (k.length < MAX_KEY_SIZE ∧ v.length < MAX_VALUE_SIZE) ∧
        ∃ j, j < c.max_keys ∧ eligibleAt c k j := by
  rw [Set]
  by_cases h : MAX_KEY_SIZE ≤ k.length ∨ MAX_VALUE_SIZE ≤ v.length
  · rw [if_pos h]
    constructor
    · intro hf
      exact absurd hf (by simp)
    · rintro ⟨⟨h1, h2⟩, -⟩
      omega
  · rw [if_neg h, setScan_true_iff]
    push_neg at h
    constructor
    · rintro ⟨j, hj, he⟩
      exact ⟨⟨h.1, h.2⟩, j, mem_probeSeq_lt hj, he⟩
    · rintro ⟨-, j, hj, he⟩
      exact ⟨j, mem_probeSeq_of_lt _ (by omega) hj, he⟩

/-! ## Fresh-table and hash helper lemmas -/

theorem slotAt_initCache (cap j : Nat) : slotAt (initCache cap) j = emptySlot := by
  rcases Nat.lt_or_ge j cap with h | h
  · rw [slotAt_eq_getElem (by simpa [initCache] using h)]
    simp [initCache]
  · exact slotAt_of_le (by simpa [initCache] using h)

theorem hash_foldl_agree (k : List Nat) (hk : ∀ b ∈ k, b < 128) :
    ∀ acc : Nat, k.foldl hashStep acc =
      k.foldl (fun h b => ((h ^^^ b) * FNV_32_PRIME) % U32) acc := by
  induction k with
  | nil =>
    intro acc
    simp
  | cons b rest ih =>
    intro acc
    have hb : b < 128 := hk b (List.mem_cons_self b rest)
    have hstep : hashStep acc b = ((acc ^^^ b) * FNV_32_PRIME) % U32 := by
      rw [hashStep, charToUInt32, if_pos hb]
    simp only [List.foldl_cons, hstep]
    exact ih (fun b' hb' => hk b' (List.mem_cons_of_mem b hb')) _

/-! ## Claim C3 -/

/-- C3: every Set/Get/Delete/Has call probes the full sequence of
`capacity` candidate indices `(start + i) % capacity` derived from the
key's hash and never stops early at an unoccupied slot.  Consequently
presence/lookup outcomes depend only on whether some slot in the table
matches the key (holes left by deletions are skipped): Has is true exactly
when a matching occupied slot exists anywhere, Get is absent exactly when
Has is false, Delete reports exactly Has, and Set succeeds exactly when
some slot is unoccupied or matches. -/
theorem claim3_full_probe_scan (c : Cache) (k v : List Nat) (ts : Nat)
    (hlen : c.slots.length = c.max_keys) :
    (probeSeq c.max_keys (Hash k % c.max_keys)).length = c.max_keys ∧
    (Has c k = true ↔
      k.length < MAX_KEY_SIZE ∧ ∃ j, j < c.max_keys ∧ matchAt c k j) ∧
    (Get c k = none ↔ Has c k = false) ∧
    ((Delete c k).1 = Has c k) ∧
    ((Set c k v ts).1 = true ↔
      (k.length < MAX_KEY_SIZE ∧ v.length < MAX_VALUE_SIZE) ∧
        ∃ j, j < c.max_keys ∧ eligibleAt c k j) :=
  ⟨probeSeq_length _ _, Has_iff c k hlen, Get_none_iff_Has c k,
    Delete_fst_eq_Has c k, Set_fst_iff c k v ts hlen⟩

/-- witness for C3 on a concrete table: a key inserted before a hole
created in front of it in its probe order is still found. -/
theorem claim3_witness :
    ((Delete (run 2 [Op.set [99] [49] 0, Op.set [97] [50] 0, Op.del [99]]) [97]).1 =
      Has (run 2 [Op.set [99] [49] 0, Op.set [97] [50] 0, Op.del [99]]) [97]) ∧
    (Get (run 2 [Op.set [99] [49] 0, Op.set [97] [50] 0, Op.del [99]]) [97] = none ↔
      Has (run 2 [Op.set [99] [49] 0, Op.set [97] [50] 0, Op.del [99]]) [97] = false) ∧
    Has (run 2 [Op.set [99] [49] 0, Op.set [97] [50] 0, Op.del [99]]) [97] = true :=
  ⟨(claim3_full_probe_scan
      (run 2 [Op.set [99] [49] 0, Op.set [97] [50] 0, Op.del [99]]) [97] [51] 0
      (by decide)).2.2.2.1,
   (claim3_full_probe_scan
      (run 2 [Op.set [99] [49] 0, Op.set [97] [50] 0, Op.del [99]]) [97] [51] 0
      (by decide)).2.2.1,
   by decide⟩

/-! ## Claim C5 -/

/-- C5: Set rejects a key of length at least KEY_MAX or a value of length
at least VALUE_MAX, returning false with the whole table state (slots and
live counter) unchanged; a key of length KEY_MAX - 1 together with a value
of length VALUE_MAX - 1 is accepted (shown on a fresh table of any
positive capacity). -/
theorem claim5_length_check (c : Cache) (k v : List Nat) (ts : Nat) (cap : Nat)
    (k' v' : List Nat) (ts' : Nat) (hcap : 0 < cap)
    (hrej : MAX_KEY_SIZE ≤ k.length ∨ MAX_VALUE_SIZE ≤ v.length)
    (hk' : k'.length = MAX_KEY_SIZE - 1) (hv' : v'.length = MAX_VALUE_SIZE - 1) :
    Set c k v ts = (false, c) ∧ (Set (initCache cap) k' v' ts').1 = true := by
  constructor
  · rw [Set, if_pos hrej]
  · rw [Set, if_neg (by rw [MAX_KEY_SIZE, MAX_VALUE_SIZE] at *; omega)]
    rw [setScan_true_iff]
    refine ⟨Hash k' % cap, ?_, ?_⟩
    · have hmk : (initCache cap).max_keys = cap := rfl
      rw [hmk]
      exact mem_probeSeq_of_lt _ hcap (Nat.mod_lt _ hcap)
    · left
      rw [slotAt_initCache]
      rfl

/-- witness for C5 at concrete inputs: an oversize key is rejected without
state change, and maximal-length key and value are accepted. -/
theorem claim5_witness :
    Set (initCache 1) (List.replicate 64 97) [49] 0 = (false, initCache 1) ∧
      (Set (initCache 1) (List.replicate 63 97) (List.replicate 255 98) 0).1 = true :=
  claim5_length_check (initCache 1) (List.replicate 64 97) [49] 0 1
    (List.replicate 63 97) (List.replicate 255 98) 0 (by decide)
    (Or.inl (by simp [MAX_KEY_SIZE])) (by simp [MAX_KEY_SIZE]) (by simp [MAX_VALUE_SIZE])

/-! ## Claim C8 -/

/-- C8 counterexample: on the byte 0x80 the code's hash differs from
FNV-1a as the specification states it, because `static_cast<uint32_t>`
sign-extends the signed char before the XOR. -/
theorem claim8_counterexample : Hash [128] ≠ fnv1aSpec [128] := by decide

/-- C8 (amended): Hash is the pure, deterministic FNV-1a fold in 32-bit
arithmetic where each byte is first converted through the signed-char
cast (identity below 0x80, sign-extension above); on byte strings whose
bytes are all below 0x80 it coincides exactly with FNV-1a as specified. -/
theorem claim8_hash_fnv1a (k : List Nat) (hk : ∀ b ∈ k, b < 128) :
    Hash k = fnv1aSpec k := by
  rw [Hash, fnv1aSpec]
  exact hash_foldl_agree k hk FNV_OFFSET_BASIS

/-- witness for C8 on a concrete ASCII key. -/
theorem claim8_witness : Hash [97, 98, 99] = fnv1aSpec [97, 98, 99] :=
  claim8_hash_fnv1a [97, 98, 99] (by decide)

/-! ## Claim C10 -/

/-- C10: with a stored capacity of at least 1, the probe start index
`hash % capacity` is below capacity, every index of the probe sequence
visited by Set/Get/Delete/Has is below capacity, and the plain loop
indices of Keys/Entries/Clear are below capacity, so every slot access is
in bounds; the constructor itself accepts capacity 0 without validation. -/
theorem claim10_index_bounds (cap s : Nat) (k : List Nat) (hcap : 0 < cap) :
    Hash k % cap < cap ∧
    (∀ j ∈ probeSeq cap s, j < cap) ∧
    (∀ i ∈ List.range cap, i < cap) ∧
    (initCache 0).max_keys = 0 :=
  ⟨Nat.mod_lt _ hcap, fun _ hj => mem_probeSeq_lt hj, fun _ hi => List.mem_range.mp hi, rfl⟩

/-- witness for C10 at concrete capacity 3. -/
theorem claim10_witness :
    Hash [97] % 3 < 3 ∧ (initCache 0).max_keys = 0 :=
  ⟨(claim10_index_bounds 3 5 [97] (by decide)).1,
   (claim10_index_bounds 3 5 [97] (by decide)).2.2.2⟩

/-! ## Claim C4 -/

/-- after Set claims slot `j` (all earlier probe candidates having been
occupied with non-matching keys), a Get scan over the same candidate list
finds the freshly written slot and returns its value. -/
theorem getScan_writeAt (c : Cache) (k v : List Nat) (ts : Nat) {j : Nat}
    (hj : j < c.slots.length) (hk : k.length < MAX_KEY_SIZE)
    (l1 l2 : List Nat) (hpre : ∀ p ∈ l1, ¬ eligibleAt c k p) :
    getScan k (l1 ++ j :: l2) (writeAt c j k v ts) =
      some ((cstr v).take (MAX_VALUE_SIZE - 1)) := by
  induction l1 with
  | nil =>
    rw [List.nil_append]
    have hs : slotAt (writeAt c j k v ts) j = writeSlot k v ts :=
      slotAt_writeAt_self c k v ts hj
    have hcond : ((slotAt (writeAt c j k v ts) j).occupied &&
        slotKeyMatches (slotAt (writeAt c j k v ts) j) k) = true := by
      rw [hs, slotKeyMatches, writeSlot_key v ts hk]
      simp [writeSlot]
    simp only [getScan]
    rw [if_pos hcond, hs]
    rfl
  | cons p l1' ih =>
    rw [List.cons_append]
    by_cases hpj : p = j
    · subst hpj
      have hs : slotAt (writeAt c p k v ts) p = writeSlot k v ts :=
        slotAt_writeAt_self c k v ts hj
      have hcond : ((slotAt (writeAt c p k v ts) p).occupied &&
          slotKeyMatches (slotAt (writeAt c p k v ts) p) k) = true := by
        rw [hs, slotKeyMatches, writeSlot_key v ts hk]
        simp [writeSlot]
      simp only [getScan]
      rw [if_pos hcond, hs]
      rfl
    · have hne : ¬ eligibleAt c k p := hpre p (List.mem_cons_self p l1')
      rw [eligibleAt] at hne
      push_neg at hne
      have hs : slotAt (writeAt c j k v ts) p = slotAt c p :=
        slotAt_writeAt_ne c k v ts (fun h => hpj h.symm)
      have hcond : ((slotAt (writeAt c j k v ts) p).occupied &&
          slotKeyMatches (slotAt (writeAt c j k v ts) p) k) = false := by
        rw [hs, slotKeyMatches]
        simp only [Bool.and_eq_false_iff]
        right
        simpa using hne.2
      simp only [getScan]
      rw [if_neg (by simp [hcond])]
      exact ih (fun q hq => hpre q (List.mem_cons_of_mem p hq))

/-- C4 counterexample: a value with an embedded NUL byte is truncated by
strncpy, so the Get after a successful Set does not return exactly the
set value. -/
theorem claim4_counterexample :
    (Set (initCache 1) [97] [49, 0, 50] 0).1 = true ∧
      Get (Set (initCache 1) [97] [49, 0, 50] 0).2 [97] = some [49] ∧
      [49] ≠ [49, 0, 50] := by decide

/-- C4 (amended): for every key of valid length and every value of valid
length containing no NUL byte, and every table state whose slot array has
exactly capacity slots, if Set returns true then an immediate Get of the
same key returns exactly the set value. -/
theorem claim4_set_get_roundtrip (c : Cache) (k v : List Nat) (ts : Nat)
    (hlen : c.slots.length = c.max_keys) (hv : (0 : Nat) ∉ v)
    (hset : (Set c k v ts).1 = true) :
    Get (Set c k v ts).2 k = some v := by
  have hcond : ¬ (MAX_KEY_SIZE ≤ k.length ∨ MAX_VALUE_SIZE ≤ v.length) := by
    intro h
    rw [Set, if_pos h] at hset
    exact absurd hset (by simp)
  have hklen : k.length < MAX_KEY_SIZE := by
    rcases Nat.lt_or_ge k.length MAX_KEY_SIZE with h | h
    · exact h
    · exact absurd (Or.inl h) hcond
  have hvlen : v.length < MAX_VALUE_SIZE := by
    rcases Nat.lt_or_ge v.length MAX_VALUE_SIZE with h | h
    · exact h
    · exact absurd (Or.inr h) hcond
  rw [Set, if_neg hcond] at hset ⊢
  obtain ⟨l1, j, l2, hsplit, hpre, _, hsnd⟩ := setScan_true_split k v ts _ c hset
  have hj : j < c.max_keys := mem_probeSeq_lt (by rw [hsplit]; simp)
  rw [hsnd, Get, if_neg (by omega)]
  have hmk : (writeAt c j k v ts).max_keys = c.max_keys := rfl
  rw [hmk, hsplit, getScan_writeAt c k v ts (by omega) hklen l1 l2 hpre]
  rw [cstr_of_no_nul hv,
    List.take_of_length_le (by rw [MAX_VALUE_SIZE] at hvlen ⊢; omega)]

/-- witness for C4 (amended) at a concrete input. -/
theorem claim4_witness :
    Get (Set (initCache 1) [97] [49, 50] 0).2 [97] = some [49, 50] :=
  claim4_set_get_roundtrip (initCache 1) [97] [49, 50] 0 (by decide)
    (by decide) (by decide)

/-! ## Claim C2 -/

theorem matchCount_pos_of_matchAt (c : Cache) (k : List Nat) {j : Nat}
    (hj : j < c.slots.length) (hm : matchAt c k j) : 0 < matchCount c k := by
  rw [matchCount, List.countP_pos_iff]
  exact ⟨slotAt c j, slotAt_mem hj, by simp [slotKeyMatches, hm.1, hm.2]⟩

theorem no_match_of_matchCount_zero (c : Cache) (k : List Nat)
    (h : matchCount c k = 0) : ∀ j, ¬ matchAt c k j := by
  intro j hm
  rcases Nat.lt_or_ge j c.slots.length with hj | hj
  · have := matchCount_pos_of_matchAt c k hj hm
    omega
  · have : slotAt c j = emptySlot := slotAt_of_le hj
    rw [matchAt, this] at hm
    exact absurd hm.1 (by simp [emptySlot])

theorem absent_of_matchCount_zero (c : Cache) (k : List Nat)
    (hlen : c.slots.length = c.max_keys) (h : matchCount c k = 0) :
    Has c k = false ∧ Get c k = none := by
  have hno := no_match_of_matchCount_zero c k h
  have hhas : Has c k = false := by
    cases hb : Has c k
    · rfl
    · obtain ⟨-, j, -, hm⟩ := (Has_iff c k hlen).mp hb
      exact absurd hm (hno j)
  exact ⟨hhas, (Get_none_iff_Has c k).mpr hhas⟩

/-- deleting a key from a table in which at most one occupied slot matches
it leaves the key absent. -/
theorem delete_then_absent (c : Cache) (k : List Nat)
    (hlen : c.slots.length = c.max_keys) (hm : matchCount c k ≤ 1) :
    Has (Delete c k).2 k = false ∧ Get (Delete c k).2 k = none := by
  by_cases hk : MAX_KEY_SIZE ≤ k.length
  · have hD : (Delete c k).2 = c := by rw [Delete, if_pos hk]
    rw [hD]
    constructor
    · rw [Has, if_pos hk]
    · rw [Get, if_pos hk]
  · cases hb : (Delete c k).1
    · have hsnd : (Delete c k).2 = c := by
        rw [Delete, if_neg hk] at hb ⊢
        exact delScan_snd_of_false _ _ _ hb
      have hhas : Has c k = false := by
        rw [← Delete_fst_eq_Has]
        exact hb
      rw [hsnd]
      exact ⟨hhas, (Get_none_iff_Has c k).mpr hhas⟩
    · have hb' := hb
      rw [Delete, if_neg hk] at hb'
      obtain ⟨l1, j, l2, hsplit, hpre, hmj, hsnd⟩ := delScan_true_split k _ c hb'
      have hjcap : j < c.max_keys := mem_probeSeq_lt (by rw [hsplit]; simp)
      have hjlen : j < c.slots.length := by omega
      have hD2 : (Delete c k).2 = { c with
          slots := c.slots.set j (clearSlot (slotAt c j)),
          num_entries := (c.num_entries + (U64 - 1)) % U64 } := by
        rw [Delete, if_neg hk]
        exact hsnd
      have hcount : matchCount (Delete c k).2 k = 0 := by
        rw [hD2, matchCount]
        show (c.slots.set j (clearSlot (slotAt c j))).countP
          (fun s => s.occupied && slotKeyMatches s k) = 0
        have haux := countP_set_aux (fun s => s.occupied && slotKeyMatches s k)
          c.slots j (clearSlot (slotAt c j)) emptySlot hjlen
        have hpj : ((slotAt c j).occupied && slotKeyMatches (slotAt c j) k) = true := by
          simp [slotKeyMatches, hmj.1, hmj.2]
        have hpc : ((clearSlot (slotAt c j)).occupied &&
            slotKeyMatches (clearSlot (slotAt c j)) k) = false := by
          simp [clearSlot]
        have hgd : c.slots.getD j emptySlot = slotAt c j := rfl
        rw [hgd] at haux
        simp [hpj, hpc] at haux
        have hpos : 0 < matchCount c k := matchCount_pos_of_matchAt c k hjlen hmj
        rw [matchCount] at hpos hm
        omega
      have hshape : (Delete c k).2.max_keys = c.max_keys ∧
          (Delete c k).2.slots.length = c.slots.length := applyOp_shape c (Op.del k)
      exact absent_of_matchCount_zero _ k (by rw [hshape.2, hshape.1, hlen]) hcount

/-- C2 counterexample: starting from the reachable capacity-2 state built
by set c, set a, delete c (a hole in front of slot 1 holding key a), a
set(a) claims the hole and duplicates the key, so delete(a) right after
set(a) removes only one copy and has(a) stays true. -/
theorem claim2_counterexample :
    (Set (run 2 [Op.set [99] [49] 0, Op.set [97] [50] 0, Op.del [99]]) [97] [51] 0).1 =
        true ∧
      (Delete (Set (run 2 [Op.set [99] [49] 0, Op.set [97] [50] 0, Op.del [99]])
          [97] [51] 0).2 [97]).1 = true ∧
      Has (Delete (Set (run 2 [Op.set [99] [49] 0, Op.set [97] [50] 0, Op.del [99]])
          [97] [51] 0).2 [97]).2 [97] = true := by decide

/-- C2 (amended): for every key and value and every table state with one
slot per capacity unit, provided at most one occupied slot matches the key
after the Set (i.e. the Set did not duplicate an existing key across a
deletion hole), a delete(k) immediately after set(k, v) makes has(k) false
and a subsequent get(k) absent. -/
theorem claim2_delete_after_set (c : Cache) (k v : List Nat) (ts : Nat)
    (hlen : c.slots.length = c.max_keys)
    (hdup : matchCount (Set c k v ts).2 k ≤ 1) :
    Has (Delete (Set c k v ts).2 k).2 k = false ∧
      Get (Delete (Set c k v ts).2 k).2 k = none := by
  have hshape : (Set c k v ts).2.max_keys = c.max_keys ∧
      (Set c k v ts).2.slots.length = c.slots.length := applyOp_shape c (Op.set k v ts)
  exact delete_then_absent (Set c k v ts).2 k (by rw [hshape.2, hshape.1, hlen]) hdup

/-- witness for C2 (amended) at a concrete input. -/
theorem claim2_witness :
    Has (Delete (Set (initCache 1) [97] [98] 0).2 [97]).2 [97] = false ∧
      Get (Delete (Set (initCache 1) [97] [98] 0).2 [97]).2 [97] = none :=
  claim2_delete_after_set (initCache 1) [97] [98] 0 (by decide) (by decide)

/-! ## Claim C9 -/

/-- run invariant: an unoccupied slot has zeroed key and value buffers
(zero-initialization, memset on Delete/Clear). -/
def unoccupiedZeroed (c : Cache) : Prop :=
  ∀ s ∈ c.slots, s.occupied = false → s.key = [] ∧ s.value = []

theorem unoccupiedZeroed_applyOp (c : Cache) (op : Op) (h : unoccupiedZeroed c) :
    unoccupiedZeroed (applyOp c op) := by
  cases op with
  | set k v ts =>
    show unoccupiedZeroed (Set c k v ts).2
    rw [Set]
    by_cases hc : MAX_KEY_SIZE ≤ k.length ∨ MAX_VALUE_SIZE ≤ v.length
    · rw [if_pos hc]
      exact h
    · rw [if_neg hc]
      cases hb : (setScan k v ts (probeSeq c.max_keys (Hash k % c.max_keys)) c).1
      · rw [setScan_snd_of_false _ _ _ _ _ hb]
        exact h
      · obtain ⟨l1, j, l2, -, -, -, hsnd⟩ := setScan_true_split _ _ _ _ _ hb
        rw [hsnd]
        intro s hs hocc
        rcases List.mem_or_eq_of_mem_set hs with hmem | rfl
        · exact h s hmem hocc
        · exact absurd hocc (by simp [writeSlot])
  | del k =>
    show unoccupiedZeroed (Delete c k).2
    rw [Delete]
    by_cases hc : MAX_KEY_SIZE ≤ k.length
    · rw [if_pos hc]
      exact h
    · rw [if_neg hc]
      cases hb : (delScan k (probeSeq c.max_keys (Hash k % c.max_keys)) c).1
      · rw [delScan_snd_of_false _ _ _ hb]
        exact h
      · obtain ⟨l1, j, l2, -, -, -, hsnd⟩ := delScan_true_split _ _ _ hb
        rw [hsnd]
        intro s hs hocc
        rcases List.mem_or_eq_of_mem_set hs with hmem | rfl
        · exact h s hmem hocc
        · exact ⟨rfl, rfl⟩
  | clear =>
    intro s hs hocc
    obtain ⟨t, ht, rfl⟩ := List.mem_map.mp hs
    by_cases hto : t.occupied = true
    · rw [if_pos hto]
      exact ⟨rfl, rfl⟩
    · rw [if_neg hto] at hocc ⊢
      exact h t ht (Bool.not_eq_true t.occupied ▸ hto)

theorem unoccupiedZeroed_run (cap : Nat) (ops : List Op) :
    unoccupiedZeroed (run cap ops) := by
  suffices hgen : ∀ (l : List Op) (c : Cache), unoccupiedZeroed c →
      unoccupiedZeroed (l.foldl applyOp c) by
    refine hgen ops (initCache cap) ?_
    intro s hs _
    have : s = emptySlot := List.eq_of_mem_replicate hs
    rw [this]
    exact ⟨rfl, rfl⟩
  intro l
  induction l with
  | nil => exact fun c hc => hc
  | cons op rest ih =>
    exact fun c hc => ih (applyOp c op) (unoccupiedZeroed_applyOp c op hc)

/-- C9: after Clear on any sequentially reachable table, Size is 0, every
slot is unoccupied with zeroed key and value buffers, and Has is false for
every key (in particular every key present before the Clear). -/
theorem claim9_clear_empties (cap : Nat) (ops : List Op) :
    Size (Clear (run cap ops)) = 0 ∧
      (∀ s ∈ (Clear (run cap ops)).slots,
        s.occupied = false ∧ s.key = [] ∧ s.value = []) ∧
      ∀ k, Has (Clear (run cap ops)) k = false := by
  have hz := unoccupiedZeroed_run cap ops
  have hslots : ∀ s ∈ (Clear (run cap ops)).slots,
      s.occupied = false ∧ s.key = [] ∧ s.value = [] := by
    intro s hs
    obtain ⟨t, ht, rfl⟩ := List.mem_map.mp hs
    by_cases hto : t.occupied = true
    · rw [if_pos hto]
      exact ⟨rfl, rfl, rfl⟩
    · rw [if_neg hto]
      have hocc : t.occupied = false := Bool.not_eq_true t.occupied ▸ hto
      obtain ⟨h1, h2⟩ := hz t ht hocc
      exact ⟨hocc, h1, h2⟩
  refine ⟨rfl, hslots, ?_⟩
  have hall : ∀ j, (slotAt (Clear (run cap ops)) j).occupied = false := by
    intro j
    rcases Nat.lt_or_ge j (Clear (run cap ops)).slots.length with hj | hj
    · exact (hslots _ (slotAt_mem hj)).1
    · rw [slotAt_of_le hj]
      rfl
  intro k
  cases hb : Has (Clear (run cap ops)) k
  · rfl
  · exfalso
    have hlen : (Clear (run cap ops)).slots.length = (Clear (run cap ops)).max_keys := by
      have hr := run_shape cap ops
      show ((run cap ops).slots.map _).length = (run cap ops).max_keys
      rw [List.length_map, hr.1, hr.2]
    obtain ⟨-, j, -, hm⟩ := (Has_iff _ k hlen).mp hb
    have h1 := hm.1
    rw [hall j] at h1
    cases h1

/-- witness for C9 at a concrete run. -/
theorem claim9_witness :
    Size (Clear (run 1 [Op.set [97] [98] 0])) = 0 ∧
      Has (Clear (run 1 [Op.set [97] [98] 0])) [97] = false :=
  ⟨(claim9_clear_empties 1 [Op.set [97] [98] 0]).1,
   (claim9_clear_empties 1 [Op.set [97] [98] 0]).2.2 [97]⟩

/-! ## Claim C7 -/

/-- run invariant for the live counter: the slot array has one slot per
capacity unit, fits size_t, and `num_entries` equals the number of
occupied slots. -/
def counterSynced (c : Cache) : Prop :=
  c.slots.length = c.max_keys ∧ c.slots.length < U64 ∧
    c.num_entries = countOccupied c

theorem counterSynced_applyOp (c : Cache) (op : Op) (h : counterSynced c) :
    counterSynced (applyOp c op) := by
  obtain ⟨hlen, hsz, hn⟩ := h
  have hshape := applyOp_shape c op
  refine ⟨hshape.2.trans (hlen.trans hshape.1.symm), hshape.2.trans_lt hsz, ?_⟩
  cases op with
  | set k v ts =>
    show (Set c k v ts).2.num_entries = countOccupied (Set c k v ts).2
    rw [Set]
    by_cases hc : MAX_KEY_SIZE ≤ k.length ∨ MAX_VALUE_SIZE ≤ v.length
    · rw [if_pos hc]
      exact hn
    · rw [if_neg hc]
      cases hb : (setScan k v ts (probeSeq c.max_keys (Hash k % c.max_keys)) c).1
      · rw [setScan_snd_of_false _ _ _ _ _ hb]
        exact hn
      · obtain ⟨l1, j, l2, hsplit, -, -, hsnd⟩ := setScan_true_split _ _ _ _ _ hb
        have hj : j < c.slots.length := by
          rw [hlen]
          exact mem_probeSeq_lt (by rw [hsplit]; simp)
        rw [hsnd, writeAt]
        have haux := countP_set_aux (fun s => s.occupied) c.slots j
          (writeSlot k v ts) emptySlot hj
        have hgd : c.slots.getD j emptySlot = slotAt c j := rfl
        rw [hgd] at haux
        have hwocc : ((writeSlot k v ts).occupied = true) := rfl
        have hcount : countOccupied c ≤ c.slots.length := List.countP_le_length _
        cases hocc : (slotAt c j).occupied
        · simp only [hocc, hwocc, if_true, if_false, Bool.false_eq_true] at haux ⊢
          show (c.num_entries + 1) % U64 =
            (c.slots.set j (writeSlot k v ts)).countP (fun s => s.occupied)
          have hle : (c.slots.set j (writeSlot k v ts)).countP (fun s => s.occupied) ≤
              c.slots.length := by
            have := List.countP_le_length (l := c.slots.set j (writeSlot k v ts))
              (p := fun s => s.occupied)
            simpa using this
          rw [countOccupied] at hn
          rw [Nat.mod_eq_of_lt (by omega), hn]
          omega
        · simp only [hocc, hwocc, if_true] at haux ⊢
          show c.num_entries =
            (c.slots.set j (writeSlot k v ts)).countP (fun s => s.occupied)
          rw [countOccupied] at hn
          omega
  | del k =>
    show (Delete c k).2.num_entries = countOccupied (Delete c k).2
    rw [Delete]
    by_cases hc : MAX_KEY_SIZE ≤ k.length
    · rw [if_pos hc]
      exact hn
    · rw [if_neg hc]
      cases hb : (delScan k (probeSeq c.max_keys (Hash k % c.max_keys)) c).1
      · rw [delScan_snd_of_false _ _ _ hb]
        exact hn
      · obtain ⟨l1, j, l2, hsplit, -, hmj, hsnd⟩ := delScan_true_split _ _ _ hb
        have hj : j < c.slots.length := by
          rw [hlen]
          exact mem_probeSeq_lt (by rw [hsplit]; simp)
        rw [hsnd]
        show (c.num_entries + (U64 - 1)) % U64 =
          (c.slots.set j (clearSlot (slotAt c j))).countP (fun s => s.occupied)
        have haux := countP_set_aux (fun s => s.occupied) c.slots j
          (clearSlot (slotAt c j)) emptySlot hj
        have hgd : c.slots.getD j emptySlot = slotAt c j := rfl
        rw [hgd] at haux
        have hco : (clearSlot (slotAt c j)).occupied = false := rfl
        simp [hmj.1, hco] at haux
        have hpos : 0 < c.slots.countP (fun s => s.occupied) := by
          rw [List.countP_pos_iff]
          exact ⟨slotAt c j, slotAt_mem hj, by simp [hmj.1]⟩
        have hcount : c.slots.countP (fun s => s.occupied) ≤ c.slots.length :=
          List.countP_le_length _
        rw [countOccupied] at hn
        have hU : 0 < U64 := by
          rw [U64]
          exact Nat.pos_pow_of_pos 64 (by omega)
        have heq : c.num_entries + (U64 - 1) = (c.num_entries - 1) + 1 * U64 := by
          omega
        rw [heq, Nat.add_mul_mod_self_right, Nat.mod_eq_of_lt (by omega)]
        omega
  | clear =>
    show (0 : Nat) = countOccupied (Clear c)
    rw [countOccupied, Clear]
    have hz : ((c.slots.map fun s => if s.occupied then clearSlot s else s).countP
        (fun s => s.occupied)) = 0 := by
      rw [List.countP_eq_zero]
      intro s hs
      obtain ⟨t, ht, rfl⟩ := List.mem_map.mp hs
      by_cases hto : t.occupied = true
      · rw [if_pos hto]
        simp [clearSlot]
      · rw [if_neg hto]
        simpa using hto
    rw [hz]

theorem counterSynced_run (cap : Nat) (ops : List Op) (hcap : cap < U64) :
    counterSynced (run cap ops) := by
  suffices hgen : ∀ (l : List Op) (c : Cache), counterSynced c →
      counterSynced (l.foldl applyOp c) by
    refine hgen ops (initCache cap) ?_
    refine ⟨by simp [initCache], by simpa [initCache] using hcap, ?_⟩
    show (0 : Nat) = countOccupied (initCache cap)
    rw [countOccupied, List.countP_eq_zero.mpr]
    intro s hs
    have := List.eq_of_mem_replicate hs
    simp [this, emptySlot]
  intro l
  induction l with
  | nil => exact fun c hc => hc
  | cons op rest ih =>
    exact fun c hc => ih (applyOp c op) (counterSynced_applyOp c op hc)

/-- C7 counterexample: in the reachable capacity-2 state where both slots
hold key a (built by set c, set a, delete c, set a), size() is 2 and two
slots are occupied, yet only one distinct key has has(k) true, so size()
differs from the number of keys for which has(k) is true. -/
theorem claim7_counterexample :
    Size (run 2 [Op.set [99] [49] 0, Op.set [97] [50] 0, Op.del [99],
        Op.set [97] [51] 0]) = 2 ∧
      countOccupied (run 2 [Op.set [99] [49] 0, Op.set [97] [50] 0, Op.del [99],
        Op.set [97] [51] 0]) = 2 ∧
      occupiedKeys (run 2 [Op.set [99] [49] 0, Op.set [97] [50] 0, Op.del [99],
        Op.set [97] [51] 0]) = [[97], [97]] ∧
      (occupiedKeys (run 2 [Op.set [99] [49] 0, Op.set [97] [50] 0, Op.del [99],
        Op.set [97] [51] 0])).dedup = [[97]] := by decide

/-- C7 (amended): in every state sequentially reachable by Set/Delete/Clear
from the empty table (capacity below 2^64), size() equals the number of
occupied slots and lies between 0 and the capacity; the number of distinct
keys for which has(k) is true is at most size() (a key k has has(k) true
exactly when its C string occurs among the occupied slots' keys), with
equality only when no two occupied slots share a key. -/
theorem claim7_size_counter (cap : Nat) (ops : List Op) (hcap : cap < U64) :
    Size (run cap ops) = countOccupied (run cap ops) ∧
      Size (run cap ops) ≤ cap ∧
      (occupiedKeys (run cap ops)).dedup.length ≤ Size (run cap ops) ∧
      ∀ k, Has (run cap ops) k = true ↔
        (k.length < MAX_KEY_SIZE ∧ cstr k ∈ occupiedKeys (run cap ops)) := by
  obtain ⟨hlen, hsz, hn⟩ := counterSynced_run cap ops hcap
  have hr := run_shape cap ops
  have hkeyslen : (occupiedKeys (run cap ops)).length = countOccupied (run cap ops) := by
    rw [occupiedKeys, countOccupied, List.length_map, List.countP_eq_length_filter]
  refine ⟨hn, ?_, ?_, ?_⟩
  · show (run cap ops).num_entries ≤ cap
    rw [hn]
    have hb : countOccupied (run cap ops) ≤ (run cap ops).slots.length :=
      List.countP_le_length _
    omega
  · show (occupiedKeys (run cap ops)).dedup.length ≤ (run cap ops).num_entries
    rw [hn, ← hkeyslen]
    exact (List.dedup_sublist _).length_le
  · intro k
    rw [Has_iff _ k hlen]
    constructor
    · rintro ⟨hk, j, hj, hm⟩
      refine ⟨hk, ?_⟩
      rw [occupiedKeys]
      refine List.mem_map.mpr ⟨slotAt (run cap ops) j, ?_, hm.2⟩
      refine List.mem_filter.mpr ⟨slotAt_mem (by omega), by simp [hm.1]⟩
    · rintro ⟨hk, hmem⟩
      refine ⟨hk, ?_⟩
      rw [occupiedKeys] at hmem
      obtain ⟨s, hsf, hskey⟩ := List.mem_map.mp hmem
      obtain ⟨hsmem, hsocc⟩ := List.mem_filter.mp hsf
      obtain ⟨j, hj, hsj⟩ := List.mem_iff_getElem.mp hsmem
      refine ⟨j, by omega, ?_⟩
      rw [matchAt, slotAt_eq_getElem hj, hsj]
      exact ⟨by simpa using hsocc, hskey⟩

/-- witness for C7 at a concrete run containing a set and a delete. -/
theorem claim7_witness :
    Size (run 2 [Op.set [97] [49] 0, Op.set [99] [50] 0, Op.del [97]]) =
        countOccupied (run 2 [Op.set [97] [49] 0, Op.set [99] [50] 0, Op.del [97]]) ∧
      Size (run 2 [Op.set [97] [49] 0, Op.set [99] [50] 0, Op.del [97]]) ≤ 2 ∧
      (Has (run 2 [Op.set [97] [49] 0, Op.set [99] [50] 0, Op.del [97]]) [99] = true ↔
        (([99] : List Nat).length < MAX_KEY_SIZE ∧
          cstr [99] ∈ occupiedKeys (run 2 [Op.set [97] [49] 0, Op.set [99] [50] 0,
            Op.del [97]]))) :=
  ⟨(claim7_size_counter 2 [Op.set [97] [49] 0, Op.set [99] [50] 0, Op.del [97]]
      (by decide)).1,
   (claim7_size_counter 2 [Op.set [97] [49] 0, Op.set [99] [50] 0, Op.del [97]]
      (by decide)).2.1,
   (claim7_size_counter 2 [Op.set [97] [49] 0, Op.set [99] [50] 0, Op.del [97]]
      (by decide)).2.2.2 [99]⟩

/-! ## Claim C1 -/

/-- no two occupied slots of the table hold equal keys. -/
def Uniq (c : Cache) : Prop :=
  ∀ i j, i < c.max_keys → j < c.max_keys → i ≠ j →
    (slotAt c i).occupied = true → (slotAt c j).occupied = true →
    (slotAt c i).key ≠ (slotAt c j).key

/-- every slot preceding an occupied slot in that slot's own key's probe
order is itself occupied (no hole in front of any stored key). -/
def probeClosed (c : Cache) : Prop :=
  ∀ j, j < c.max_keys → (slotAt c j).occupied = true →
    ∀ p, p < c.max_keys →
      probeRank c.max_keys (Hash (slotAt c j).key % c.max_keys) p <
        probeRank c.max_keys (Hash (slotAt c j).key % c.max_keys) j →
      (slotAt c p).occupied = true

/-- stored keys of occupied slots are NUL-free and of valid length. -/
def goodKeys (c : Cache) : Prop :=
  ∀ j, j < c.max_keys → (slotAt c j).occupied = true →
    (0 : Nat) ∉ (slotAt c j).key ∧ (slotAt c j).key.length < MAX_KEY_SIZE

/-- combined invariant maintained by Set and Clear. -/
def scInv (c : Cache) : Prop :=
  c.slots.length = c.max_keys ∧ goodKeys c ∧ probeClosed c ∧ Uniq c

/-- operations allowed by the amended C1: Set with a NUL-free key, and
Clear; no Delete. -/
def setClearOnly : Op → Prop
  | .set k _ _ => (0 : Nat) ∉ k
  | .del _ => False
  | .clear => True

theorem not_eligible_facts {c : Cache} {k : List Nat} {p : Nat}
    (h : ¬ eligibleAt c k p) :
    (slotAt c p).occupied = true ∧ (slotAt c p).key ≠ cstr k := by
  rw [eligibleAt] at h
  push_neg at h
  cases hb : (slotAt c p).occupied
  · exact absurd hb h.1
  · exact ⟨rfl, h.2⟩

theorem rank_inj {cap start p q : Nat} (hcap : 0 < cap) (hp : p < cap) (hq : q < cap)
    (h : probeRank cap start p = probeRank cap start q) : p = q := by
  have h1 := apply_probeRank start hcap hp
  have h2 := apply_probeRank start hcap hq
  rw [← h1, ← h2, h]

theorem slotAt_writeAt_cases (c : Cache) (idx m : Nat) (key value : List Nat) (ts : Nat)
    (hidx : idx < c.slots.length) :
    slotAt (writeAt c idx key value ts) m =
      if idx = m then writeSlot key value ts else slotAt c m := by
  by_cases h : idx = m
  · rw [if_pos h, ← h]
    exact slotAt_writeAt_self c key value ts hidx
  · rw [if_neg h]
    exact slotAt_writeAt_ne c key value ts h

theorem scInv_applyOp (c : Cache) (op : Op) (hop : setClearOnly op) (h : scInv c) :
    scInv (applyOp c op) := by
  obtain ⟨hlen, hgood, hclosed, huniq⟩ := h
  cases op with
  | del k => exact absurd hop (by simp [setClearOnly])
  | clear =>
    show scInv (Clear c)
    have hclen : (Clear c).slots.length = (Clear c).max_keys := by
      show (c.slots.map _).length = c.max_keys
      rw [List.length_map]
      exact hlen
    have hoccF : ∀ p, (slotAt (Clear c) p).occupied = false := by
      intro p
      rcases Nat.lt_or_ge p (Clear c).slots.length with hp | hp
      · obtain ⟨t, ht, heq⟩ := List.mem_map.mp (slotAt_mem hp)
        rw [← heq]
        by_cases hto : t.occupied = true
        · rw [if_pos hto]
          rfl
        · rw [if_neg hto]
          exact Bool.not_eq_true t.occupied ▸ hto
      · rw [slotAt_of_le hp]
        rfl
    refine ⟨hclen, ?_, ?_, ?_⟩
    · intro j hj hocc
      rw [hoccF j] at hocc
      cases hocc
    · intro j hj hocc
      rw [hoccF j] at hocc
      cases hocc
    · intro i j hi hj hne hocci
      rw [hoccF i] at hocci
      cases hocci
  | set k v ts =>
    have hk0 : (0 : Nat) ∉ k := hop
    show scInv (Set c k v ts).2
    rw [Set]
    by_cases hc : MAX_KEY_SIZE ≤ k.length ∨ MAX_VALUE_SIZE ≤ v.length
    · rw [if_pos hc]
      exact ⟨hlen, hgood, hclosed, huniq⟩
    · rw [if_neg hc]
      push_neg at hc
      have hklen : k.length < MAX_KEY_SIZE := hc.1
      cases hb : (setScan k v ts (probeSeq c.max_keys (Hash k % c.max_keys)) c).1
      · rw [setScan_snd_of_false _ _ _ _ _ hb]
        exact ⟨hlen, hgood, hclosed, huniq⟩
      · obtain ⟨l1, j, l2, hsplit, hpre, helig, hsnd⟩ := setScan_true_split _ _ _ _ _ hb
        rw [hsnd]
        have hcapj : j < c.max_keys := mem_probeSeq_lt (by rw [hsplit]; simp)
        have hjlen : j < c.slots.length := by omega
        have hcap0 : 0 < c.max_keys := by omega
        have hck : cstr k = k := cstr_of_no_nul hk0
        have hwkey : (writeSlot k v ts).key = k := by
          rw [writeSlot_key v ts hklen, hck]
        have hlen2 : (writeAt c j k v ts).slots.length = (writeAt c j k v ts).max_keys :=
          (writeAt_slots_length c j k v ts).trans hlen
        obtain ⟨hl1len, hrankj, hl1mem⟩ := probeSeq_split_rank hsplit
        cases hocc : (slotAt c j).occupied with
        | true =>
          have hkeyeq : (slotAt c j).key = k := by
            rcases helig with hocc' | hkey
            · rw [hocc] at hocc'
              cases hocc'
            · rw [hkey, hck]
          have hocc_eq : ∀ p,
              (slotAt (writeAt c j k v ts) p).occupied = (slotAt c p).occupied := by
            intro p
            rw [slotAt_writeAt_cases c j p k v ts hjlen]
            by_cases hp : j = p
            · rw [if_pos hp, ← hp, hocc]
              rfl
            · rw [if_neg hp]
          have hkey_eq : ∀ p,
              (slotAt (writeAt c j k v ts) p).key = (slotAt c p).key := by
            intro p
            rw [slotAt_writeAt_cases c j p k v ts hjlen]
            by_cases hp : j = p
            · rw [if_pos hp, ← hp, hwkey, hkeyeq]
            · rw [if_neg hp]
          refine ⟨hlen2, ?_, ?_, ?_⟩
          · intro q hq hoccq
            rw [hkey_eq q]
            exact hgood q hq (by rw [← hocc_eq q]; exact hoccq)
          · intro q hq hoccq p hp hrank
            rw [hocc_eq p]
            rw [hkey_eq q] at hrank
            exact hclosed q hq (by rw [← hocc_eq q]; exact hoccq) p hp hrank
          · intro i i' hi hi' hne hocci hocci'
            rw [hkey_eq i, hkey_eq i']
            exact huniq i i' hi hi' hne
              (by rw [← hocc_eq i]; exact hocci)
              (by rw [← hocc_eq i']; exact hocci')
        | false =>
          have habsent : ∀ q, q < c.max_keys → (slotAt c q).occupied = true →
              (slotAt c q).key ≠ k := by
            intro q hq hoccq hkeyq
            rcases Nat.lt_trichotomy
                (probeRank c.max_keys (Hash k % c.max_keys) q)
                (probeRank c.max_keys (Hash k % c.max_keys) j) with hlt | heq | hgt
            · have hqmem : q ∈ l1 := hl1mem q hq (by rw [← hrankj]; exact hlt)
              exact (hpre q hqmem) (Or.inr (by rw [hkeyq, hck]))
            · have hqj : q = j := rank_inj hcap0 hq hcapj heq
              rw [hqj, hocc] at hoccq
              cases hoccq
            · have hhq : Hash (slotAt c q).key % c.max_keys =
                  Hash k % c.max_keys := by
                rw [hkeyq]
              have := hclosed q hq hoccq j hcapj (by rw [hhq]; exact hgt)
              rw [hocc] at this
              cases this
          refine ⟨hlen2, ?_, ?_, ?_⟩
          · intro q hq hoccq
            rw [slotAt_writeAt_cases c j q k v ts hjlen] at hoccq ⊢
            by_cases hjq : j = q
            · rw [if_pos hjq] at hoccq ⊢
              rw [hwkey]
              exact ⟨hk0, hklen⟩
            · rw [if_neg hjq] at hoccq ⊢
              exact hgood q hq hoccq
          · intro q hq hoccq p hp hrank
            rw [slotAt_writeAt_cases c j q k v ts hjlen] at hoccq hrank
            rw [slotAt_writeAt_cases c j p k v ts hjlen]
            by_cases hjp : j = p
            · rw [if_pos hjp]
              rfl
            · rw [if_neg hjp]
              by_cases hjq : j = q
              · rw [if_pos hjq] at hrank
                rw [hwkey] at hrank
                rw [← hjq] at hrank
                have hpmem : p ∈ l1 := hl1mem p hp (by
                  rw [← hrankj]
                  exact hrank)
                exact (not_eligible_facts (hpre p hpmem)).1
              · rw [if_neg hjq] at hoccq hrank
                exact hclosed q hq hoccq p hp hrank
          · intro i i' hi hi' hne hocci hocci'
            rw [slotAt_writeAt_cases c j i k v ts hjlen] at hocci ⊢
            rw [slotAt_writeAt_cases c j i' k v ts hjlen] at hocci' ⊢
            by_cases hji : j = i
            · rw [if_pos hji] at hocci ⊢
              have hji' : ¬ j = i' := fun hcon => hne ((hji.symm.trans hcon))
              rw [if_neg hji'] at hocci' ⊢
              rw [hwkey]
              exact fun hcon => habsent i' hi' hocci' hcon.symm
            · rw [if_neg hji] at hocci ⊢
              by_cases hji' : j = i'
              · rw [if_pos hji'] at hocci' ⊢
                rw [hwkey]
                exact fun hcon => habsent i hi hocci hcon
              · rw [if_neg hji'] at hocci' ⊢
                exact huniq i i' hi hi' hne hocci hocci'

theorem scInv_initCache (cap : Nat) : scInv (initCache cap) := by
  refine ⟨by simp [initCache], ?_, ?_, ?_⟩
  · intro j hj hocc
    rw [slotAt_initCache] at hocc
    cases hocc
  · intro j hj hocc
    rw [slotAt_initCache] at hocc
    cases hocc
  · intro i j hi hj hne hocci
    rw [slotAt_initCache] at hocci
    cases hocci

theorem scInv_run (cap : Nat) (ops : List Op) (hops : ∀ op ∈ ops, setClearOnly op) :
    scInv (run cap ops) := by
  suffices hgen : ∀ (l : List Op) (c : Cache), (∀ op ∈ l, setClearOnly op) →
      scInv c → scInv (l.foldl applyOp c) by
    exact hgen ops (initCache cap) hops (scInv_initCache cap)
  intro l
  induction l with
  | nil => exact fun c _ hc => hc
  | cons op rest ih =>
    intro c hl hc
    exact ih (applyOp c op) (fun o ho => hl o (List.mem_cons_of_mem op ho))
      (scInv_applyOp c op (hl op (List.mem_cons_self op rest)) hc)

/-- C1 counterexample: with Delete allowed the invariant fails on a
reachable state: capacity 2, after set c, set a, delete c, set a the table
holds key a in both slots (Set claimed the hole at slot 0 without noticing
the copy of a at slot 1). -/
theorem claim1_counterexample :
    (slotAt (run 2 [Op.set [99] [49] 0, Op.set [97] [50] 0, Op.del [99],
        Op.set [97] [51] 0]) 0).occupied = true ∧
      (slotAt (run 2 [Op.set [99] [49] 0, Op.set [97] [50] 0, Op.del [99],
        Op.set [97] [51] 0]) 1).occupied = true ∧
      (slotAt (run 2 [Op.set [99] [49] 0, Op.set [97] [50] 0, Op.del [99],
        Op.set [97] [51] 0]) 0).key =
        (slotAt (run 2 [Op.set [99] [49] 0, Op.set [97] [50] 0, Op.del [99],
          Op.set [97] [51] 0]) 1).key := by decide

/-- C1 (amended): in every table state reachable from the freshly
initialized table by Set operations with NUL-free keys and Clear
operations (no Delete), the key of an occupied slot is unique: no two
occupied slots hold equal keys. -/
theorem claim1_unique_keys (cap : Nat) (ops : List Op)
    (hops : ∀ op ∈ ops, setClearOnly op) :
    ∀ i j, i < cap → j < cap → i ≠ j →
      (slotAt (run cap ops) i).occupied = true →
      (slotAt (run cap ops) j).occupied = true →
      (slotAt (run cap ops) i).key ≠ (slotAt (run cap ops) j).key := by
  have h := (scInv_run cap ops hops).2.2.2
  have hmk := (run_shape cap ops).1
  intro i j hi hj
  exact h i j (by omega) (by omega)

/-- witness for C1 (amended) on a concrete Set-only run filling both
slots of a capacity-2 table. -/
theorem claim1_witness :
    (slotAt (run 2 [Op.set [97] [49] 0, Op.set [99] [50] 0]) 0).key ≠
      (slotAt (run 2 [Op.set [97] [49] 0, Op.set [99] [50] 0]) 1).key := by
  refine claim1_unique_keys 2 [Op.set [97] [49] 0, Op.set [99] [50] 0]
    ?_ 0 1 (by decide) (by decide) (by decide) (by decide) (by decide)
  intro op hop
  rcases List.mem_cons.mp hop with rfl | hop
  · show (0 : Nat) ∉ [97]
    decide
  · rcases List.mem_cons.mp hop with rfl | hop
    · show (0 : Nat) ∉ [99]
      decide
    · cases hop

/-! ## Claim C6 -/

/-- a key/value pair whose lengths pass the Set checks and whose bytes
contain no NUL. -/
def validPair (p : List Nat × List Nat) : Prop :=
  (0 : Nat) ∉ p.1 ∧ p.1.length < MAX_KEY_SIZE ∧
    (0 : Nat) ∉ p.2 ∧ p.2.length < MAX_VALUE_SIZE

/-- exact-contents invariant: the occupied slots hold precisely the pairs
of `kvs`, and the number of occupied slots is the number of pairs. -/
def ContentsInv (c : Cache) (kvs : List (List Nat × List Nat)) : Prop :=
  c.slots.length = c.max_keys ∧
    countOccupied c = kvs.length ∧
    ∀ k v, (∃ i, i < c.max_keys ∧ (slotAt c i).occupied = true ∧
        (slotAt c i).key = k ∧ (slotAt c i).value = v) ↔ (k, v) ∈ kvs

theorem nodup_key_lookup {kvs : List (List Nat × List Nat)}
    (h : (kvs.map Prod.fst).Nodup) {k v w : List Nat}
    (h1 : (k, v) ∈ kvs) (h2 : (k, w) ∈ kvs) : v = w := by
  induction kvs with
  | nil => cases h1
  | cons q rest ih =>
    rw [List.map_cons, List.nodup_cons] at h
    rcases List.mem_cons.mp h1 with he1 | hm1
    · rcases List.mem_cons.mp h2 with he2 | hm2
      · have h12 := he1.trans he2.symm
        exact congrArg Prod.snd h12
      · exfalso
        apply h.1
        have hq1 : q.1 = k := by rw [← he1]
        rw [hq1]
        exact List.mem_map.mpr ⟨(k, w), hm2, rfl⟩
    · rcases List.mem_cons.mp h2 with he2 | hm2
      · exfalso
        apply h.1
        have hq1 : q.1 = k := by rw [← he2]
        rw [hq1]
        exact List.mem_map.mpr ⟨(k, v), hm1, rfl⟩
      · exact ih h.2 hm1 hm2

theorem ContentsInv_set (c : Cache) (kvs : List (List Nat × List Nat))
    (k v : List Nat) (hinv : ContentsInv c kvs) (hval : validPair (k, v))
    (hfresh : k ∉ kvs.map Prod.fst) (hroom : kvs.length < c.max_keys) :
    (Set c k v 0).1 = true ∧ ContentsInv (Set c k v 0).2 (kvs ++ [(k, v)]) := by
  obtain ⟨hlen, hcount, hiff⟩ := hinv
  obtain ⟨hk0, hklen, hv0, hvlen⟩ := hval
  replace hk0 : (0 : Nat) ∉ k := hk0
  replace hklen : k.length < MAX_KEY_SIZE := hklen
  replace hv0 : (0 : Nat) ∉ v := hv0
  replace hvlen : v.length < MAX_VALUE_SIZE := hvlen
  have hck : cstr k = k := cstr_of_no_nul hk0
  have hcv : cstr v = v := cstr_of_no_nul hv0
  have hcap0 : 0 < c.max_keys := by omega
  have hnomatch : ∀ q, ¬ matchAt c k q := by
    intro q hm
    obtain ⟨hoccq, hkeyq⟩ := hm
    rcases Nat.lt_or_ge q c.slots.length with hq | hq
    · have hpair : ((slotAt c q).key, (slotAt c q).value) ∈ kvs :=
        (hiff (slotAt c q).key (slotAt c q).value).mp ⟨q, by omega, hoccq, rfl, rfl⟩
      apply hfresh
      have hqk : (slotAt c q).key = k := by rw [hkeyq, hck]
      rw [← hqk]
      exact List.mem_map.mpr ⟨_, hpair, rfl⟩
    · rw [slotAt_of_le hq] at hoccq
      cases hoccq
  have hempty : ∃ i, i < c.max_keys ∧ (slotAt c i).occupied = false := by
    by_contra hno
    push_neg at hno
    have hall : ∀ s ∈ c.slots, s.occupied = true := by
      intro s hs
      obtain ⟨i, hi, hsi⟩ := List.mem_iff_getElem.mp hs
      have hne := hno i (by omega)
      rw [slotAt_eq_getElem hi, hsi] at hne
      cases hb : s.occupied
      · exact absurd hb hne
      · rfl
    have hfullc : countOccupied c = c.slots.length :=
      List.countP_eq_length.mpr (fun a ha => by simp [hall a ha])
    omega
  have hfst : (Set c k v 0).1 = true := by
    rw [Set_fst_iff c k v 0 hlen]
    obtain ⟨i, hi, hemp⟩ := hempty
    exact ⟨⟨hklen, hvlen⟩, i, hi, Or.inl hemp⟩
  refine ⟨hfst, ?_⟩
  have hcnd : ¬ (MAX_KEY_SIZE ≤ k.length ∨ MAX_VALUE_SIZE ≤ v.length) := by omega
  rw [Set, if_neg hcnd] at hfst ⊢
  obtain ⟨l1, j, l2, hsplit, hpre, helig, hsnd⟩ := setScan_true_split _ _ _ _ _ hfst
  have hcapj : j < c.max_keys := mem_probeSeq_lt (by rw [hsplit]; simp)
  have hjlen : j < c.slots.length := by omega
  have hjm : (slotAt c j).occupied = false := by
    cases hoccj : (slotAt c j).occupied
    · rfl
    · rcases helig with hf | hkeym
      · rw [hoccj] at hf
        cases hf
      · exact absurd ⟨hoccj, hkeym⟩ (hnomatch j)
  rw [hsnd]
  refine ⟨(writeAt_slots_length c j k v 0).trans hlen, ?_, ?_⟩
  · show (c.slots.set j (writeSlot k v 0)).countP (fun s => s.occupied) =
      (kvs ++ [(k, v)]).length
    have haux := countP_set_aux (fun s => s.occupied) c.slots j
      (writeSlot k v 0) emptySlot hjlen
    have hgd : c.slots.getD j emptySlot = slotAt c j := rfl
    have hw : (writeSlot k v 0).occupied = true := rfl
    rw [hgd] at haux
    simp [hjm, hw] at haux
    rw [countOccupied] at hcount
    simp only [List.length_append, List.length_cons, List.length_nil]
    omega
  · intro k' v'
    constructor
    · rintro ⟨i, hi, hocc, hkey, hval'⟩
      rw [slotAt_writeAt_cases c j i k v 0 hjlen] at hocc hkey hval'
      by_cases hji : j = i
      · rw [if_pos hji] at hkey hval'
        have h1 : k' = k := by
          rw [← hkey, writeSlot_key v 0 hklen, hck]
        have h2 : v' = v := by
          rw [← hval', writeSlot_value k 0 hvlen, hcv]
        rw [h1, h2]
        simp
      · rw [if_neg hji] at hocc hkey hval'
        have : (k', v') ∈ kvs := (hiff k' v').mp ⟨i, hi, hocc, hkey, hval'⟩
        exact List.mem_append_left _ this
    · intro hmem
      rcases List.mem_append.mp hmem with hold | hnew
      · obtain ⟨i, hi, hocc, hkey, hval'⟩ := (hiff k' v').mpr hold
        have hji : ¬ j = i := by
          intro he
          rw [← he, hjm] at hocc
          cases hocc
        refine ⟨i, hi, ?_, ?_, ?_⟩
        · rw [slotAt_writeAt_cases c j i k v 0 hjlen, if_neg hji]
          exact hocc
        · rw [slotAt_writeAt_cases c j i k v 0 hjlen, if_neg hji]
          exact hkey
        · rw [slotAt_writeAt_cases c j i k v 0 hjlen, if_neg hji]
          exact hval'
      · have hkv : k' = k ∧ v' = v := by
          have hsing := List.mem_singleton.mp hnew
          exact ⟨congrArg Prod.fst hsing, congrArg Prod.snd hsing⟩
        refine ⟨j, hcapj, ?_, ?_, ?_⟩
        · rw [slotAt_writeAt_cases c j j k v 0 hjlen, if_pos rfl]
          rfl
        · rw [hkv.1, slotAt_writeAt_cases c j j k v 0 hjlen, if_pos rfl,
            writeSlot_key v 0 hklen, hck]
        · rw [hkv.2, slotAt_writeAt_cases c j j k v 0 hjlen, if_pos rfl,
            writeSlot_value k 0 hvlen, hcv]

theorem setAll_shape (todo : List (List Nat × List Nat)) :
    ∀ c : Cache, (setAll c todo).2.max_keys = c.max_keys ∧
      (setAll c todo).2.slots.length = c.slots.length := by
  induction todo with
  | nil => exact fun c => ⟨rfl, rfl⟩
  | cons p rest ih =>
    intro c
    have h1 : (Set c p.1 p.2 0).2.max_keys = c.max_keys ∧
        (Set c p.1 p.2 0).2.slots.length = c.slots.length :=
      applyOp_shape c (Op.set p.1 p.2 0)
    have h2 := ih (Set c p.1 p.2 0).2
    exact ⟨h2.1.trans h1.1, h2.2.trans h1.2⟩

theorem setAll_inserts (todo : List (List Nat × List Nat)) :
    ∀ (c : Cache) (done : List (List Nat × List Nat)),
      ContentsInv c done →
      (∀ p ∈ todo, validPair p) →
      ((done ++ todo).map Prod.fst).Nodup →
      done.length + todo.length ≤ c.max_keys →
      (setAll c todo).1 = true ∧ ContentsInv (setAll c todo).2 (done ++ todo) := by
  induction todo with
  | nil =>
    intro c done hinv _ _ _
    exact ⟨rfl, by simpa using hinv⟩
  | cons p rest ih =>
    intro c done hinv hval hnodup hroom
    obtain ⟨k, v⟩ := p
    have hfresh : k ∉ done.map Prod.fst := by
      intro hk
      rw [List.map_append, List.map_cons] at hnodup
      have hdisj := (List.nodup_append.mp hnodup).2.2
      exact hdisj hk (List.mem_cons_self k _)
    have hstep := ContentsInv_set c done k v hinv
      (hval (k, v) (List.mem_cons_self _ _)) hfresh
      (by simp only [List.length_cons] at hroom; omega)
    have hmk : (Set c k v 0).2.max_keys = c.max_keys :=
      (applyOp_shape c (Op.set k v 0)).1
    have hrest := ih (Set c k v 0).2 (done ++ [(k, v)]) hstep.2
      (fun q hq => hval q (List.mem_cons_of_mem _ hq))
      (by
        have hre : done ++ [(k, v)] ++ rest = done ++ (k, v) :: rest := by simp
        rw [hre]
        exact hnodup)
      (by
        rw [hmk]
        simp only [List.length_append, List.length_cons, List.length_nil] at hroom ⊢
        omega)
    constructor
    · show ((Set c k v 0).1 && (setAll (Set c k v 0).2 rest).1) = true
      rw [hstep.1, hrest.1]
      rfl
    · show ContentsInv (setAll (Set c k v 0).2 rest).2 (done ++ (k, v) :: rest)
      have heq : done ++ (k, v) :: rest = (done ++ [(k, v)]) ++ rest := by simp
      rw [heq]
      exact hrest.2

/-- C6 counterexample: byte strings are compared as C strings, so two
distinct byte strings (a and a followed by a NUL) collapse to the same
stored key: with capacity 1, inserting the single distinct key a succeeds
and the second distinct key a-NUL also succeeds (overwriting) instead of
failing. -/
theorem claim6_counterexample :
    (Set (initCache 1) [97] [49] 0).1 = true ∧
      ([97] : List Nat) ≠ [97, 0] ∧
      (Set (Set (initCache 1) [97] [49] 0).2 [97, 0] [50] 0).1 = true := by decide

/-- C6 (amended): starting from an empty table of capacity C, inserting C
distinct NUL-free keys of valid lengths with NUL-free values of valid
lengths all succeed; a subsequent Set of a further distinct NUL-free key
returns false and leaves the state unchanged, and after that failed call
every one of the C inserted keys is still retrievable by Get with its
unchanged value. -/
theorem claim6_table_full (cap : Nat) (kvs : List (List Nat × List Nat))
    (knew vnew : List Nat)
    (hlen : kvs.length = cap)
    (hnodup : (kvs.map Prod.fst).Nodup)
    (hval : ∀ p ∈ kvs, validPair p)
    (hfresh : knew ∉ kvs.map Prod.fst) (hknew0 : (0 : Nat) ∉ knew) :
    (setAll (initCache cap) kvs).1 = true ∧
      Set (setAll (initCache cap) kvs).2 knew vnew 0 =
        (false, (setAll (initCache cap) kvs).2) ∧
      ∀ p ∈ kvs,
        Get (Set (setAll (initCache cap) kvs).2 knew vnew 0).2 p.1 = some p.2 := by
  have hinit : ContentsInv (initCache cap) [] := by
    refine ⟨by simp [initCache], ?_, ?_⟩
    · rw [countOccupied, List.countP_eq_zero.mpr]
      · rfl
      · intro s hs
        have hse := List.eq_of_mem_replicate hs
        simp [hse, emptySlot]
    · intro k v
      constructor
      · rintro ⟨i, -, hocc, -, -⟩
        rw [slotAt_initCache] at hocc
        cases hocc
      · intro hm
        cases hm
  have hall := setAll_inserts kvs (initCache cap) [] hinit hval
    (by simpa using hnodup) (by simp [initCache, hlen])
  obtain ⟨hlenF, hcountF, hiffF⟩ := hall.2
  have hshapeF := setAll_shape kvs (initCache cap)
  have hmkF : (setAll (initCache cap) kvs).2.max_keys = cap := hshapeF.1
  have hckn : cstr knew = knew := cstr_of_no_nul hknew0
  have hfull : ∀ q, q < (setAll (initCache cap) kvs).2.max_keys →
      (slotAt (setAll (initCache cap) kvs).2 q).occupied = true := by
    have hc2 : countOccupied (setAll (initCache cap) kvs).2 =
        (setAll (initCache cap) kvs).2.slots.length := by
      simp only [List.nil_append] at hcountF
      omega
    have hmembers := List.countP_eq_length.mp hc2
    intro q hq
    have hqlen : q < (setAll (initCache cap) kvs).2.slots.length := by omega
    have := hmembers _ (slotAt_mem hqlen)
    simpa using this
  have hnomatch : ∀ q, ¬ matchAt (setAll (initCache cap) kvs).2 knew q := by
    intro q hm
    obtain ⟨hoccq, hkeyq⟩ := hm
    rcases Nat.lt_or_ge q (setAll (initCache cap) kvs).2.slots.length with hq | hq
    · have hpair := (hiffF (slotAt (setAll (initCache cap) kvs).2 q).key
        (slotAt (setAll (initCache cap) kvs).2 q).value).mp
        ⟨q, by omega, hoccq, rfl, rfl⟩
      apply hfresh
      have hkk : (slotAt (setAll (initCache cap) kvs).2 q).key = knew := by
        rw [hkeyq, hckn]
      rw [← hkk]
      have hpair' : ((slotAt (setAll (initCache cap) kvs).2 q).key,
          (slotAt (setAll (initCache cap) kvs).2 q).value) ∈ kvs := by
        simpa using hpair
      exact List.mem_map.mpr ⟨_, hpair', rfl⟩
    · rw [slotAt_of_le hq] at hoccq
      cases hoccq
  have hsetF : Set (setAll (initCache cap) kvs).2 knew vnew 0 =
      (false, (setAll (initCache cap) kvs).2) := by
    by_cases hc : MAX_KEY_SIZE ≤ knew.length ∨ MAX_VALUE_SIZE ≤ vnew.length
    · rw [Set, if_pos hc]
    · rw [Set, if_neg hc]
      have hfstF : (setScan knew vnew 0
          (probeSeq (setAll (initCache cap) kvs).2.max_keys
            (Hash knew % (setAll (initCache cap) kvs).2.max_keys))
          (setAll (initCache cap) kvs).2).1 = false := by
        rw [setScan_false_iff]
        intro q hq helig
        rcases helig with hf | hkeym
        · rw [hfull q (mem_probeSeq_lt hq)] at hf
          cases hf
        · exact hnomatch q ⟨hfull q (mem_probeSeq_lt hq), hkeym⟩
      have hsndF := setScan_snd_of_false _ _ _ _ _ hfstF
      have hpair : (setScan knew vnew 0
          (probeSeq (setAll (initCache cap) kvs).2.max_keys
            (Hash knew % (setAll (initCache cap) kvs).2.max_keys))
          (setAll (initCache cap) kvs).2) =
          ((setScan knew vnew 0
            (probeSeq (setAll (initCache cap) kvs).2.max_keys
              (Hash knew % (setAll (initCache cap) kvs).2.max_keys))
            (setAll (initCache cap) kvs).2).1,
           (setScan knew vnew 0
            (probeSeq (setAll (initCache cap) kvs).2.max_keys
              (Hash knew % (setAll (initCache cap) kvs).2.max_keys))
            (setAll (initCache cap) kvs).2).2) := rfl
      rw [hpair, hfstF, hsndF]
  refine ⟨hall.1, hsetF, ?_⟩
  intro p hp
  rw [hsetF]
  obtain ⟨hp0, hplen, hpv0, hpvlen⟩ := hval p hp
  have hpk : cstr p.1 = p.1 := cstr_of_no_nul hp0
  have hpmem : (p.1, p.2) ∈ ([] : List (List Nat × List Nat)) ++ kvs := by simpa using hp
  obtain ⟨i, hi, hocc, hkey, hvalue⟩ := (hiffF p.1 p.2).mpr hpmem
  rw [Get, if_neg (by omega)]
  cases hg : getScan p.1
      (probeSeq (setAll (initCache cap) kvs).2.max_keys
        (Hash p.1 % (setAll (initCache cap) kvs).2.max_keys))
      (setAll (initCache cap) kvs).2 with
  | none =>
    exfalso
    rw [getScan_none_iff] at hg
    refine hg i (mem_probeSeq_of_lt _ (by omega) hi) ⟨hocc, ?_⟩
    rw [hkey, hpk]
  | some w =>
    obtain ⟨q, hqmem, hqm, hw⟩ := getScan_some _ _ _ _ hg
    have hqlt : q < (setAll (initCache cap) kvs).2.max_keys := mem_probeSeq_lt hqmem
    have hqpair : (p.1, (slotAt (setAll (initCache cap) kvs).2 q).value) ∈ kvs := by
      have := (hiffF p.1 ((slotAt (setAll (initCache cap) kvs).2 q).value)).mp
        ⟨q, hqlt, hqm.1, by rw [hqm.2, hpk], rfl⟩
      simpa using this
    have hpp : (p.1, p.2) ∈ kvs := by simpa using hp
    have hvw : (slotAt (setAll (initCache cap) kvs).2 q).value = p.2 :=
      nodup_key_lookup hnodup hqpair hpp
    rw [hw, hvw]

/-- witness for C6 (amended): a concrete capacity-2 table filled with two
distinct keys; a third distinct key is rejected and both keys keep their
values. -/
theorem claim6_witness :
    (setAll (initCache 2) [([97], [49]), ([99], [50])]).1 = true ∧
      Get (Set (setAll (initCache 2) [([97], [49]), ([99], [50])]).2
        [98] [51] 0).2 [97] = some [49] := by
  have h := claim6_table_full 2 [([97], [49]), ([99], [50])] [98] [51]
    rfl (by decide) ?_ (by decide) (by decide)
  · exact ⟨h.1, h.2.2 ([97], [49]) (List.mem_cons_self _ _)⟩
  · intro p hp
    rcases List.mem_cons.mp hp with rfl | hp
    · exact ⟨by decide, by decide, by decide, by decide⟩
    · rcases List.mem_cons.mp hp with rfl | hp
      · exact ⟨by decide, by decide, by decide, by decide⟩
      · cases hp

end FastShm
